import Mathlib

/-!
# LRUCache: a shallow embedding of `cache.go`

The Go program keeps its entries in heap-allocated `Node`s that point at each
other.  Here the heap is an explicit list of nodes, a pointer is an
`Option Nat` (`none` is Go's `nil`, `some a` is the address `a`, an index into
the heap), and every operation threads the heap through.  A nil dereference is
the fault `Fault.nilDeref`; a loop that has not finished when its fuel is used
up is the fault `Fault.fuel`.  Keys and values (`any` in Go) are type
parameters; an instant is an `Int` whose value `0` is the zero `time.Time`,
and a duration is an `Int`.  The mutex is not modelled: every operation is
taken as one atomic step.
-/

namespace LRU

/-- The ways an operation can fail to return. -/
inductive Fault where
  | nilDeref
  | badAddr
  | fuel
deriving DecidableEq, Repr

/-- Node of `cache.go`: an element of the doubly linked list. -/
structure Node (K V : Type) where
  key : K
  value : V
  exp : Int
  prev : Option Nat
  next : Option Nat
deriving DecidableEq, Repr

/-- LRUCache of `cache.go`, with the heap its pointers refer to. -/
structure LRUCache (K V : Type) where
  items : List (K × Nat)
  cap : Int
  head : Option Nat
  tail : Option Nat
  heap : List (Node K V)
deriving DecidableEq, Repr

section Defs

variable {K V : Type} [DecidableEq K]

/-! ## The map `items` -/

/-- Map read `items[key]`. -/
def mapLookup (m : List (K × Nat)) (key : K) : Option Nat :=
  match m with
  | [] => none
  | e :: m => if e.1 = key then some e.2 else mapLookup m key

/-- Builtin `delete(items, key)`. -/
def mapDelete (m : List (K × Nat)) (key : K) : List (K × Nat) :=
  m.filter (fun e => decide (e.1 ≠ key))

/-- Map write `items[key] = node`. -/
def mapStore (m : List (K × Nat)) (key : K) (node : Nat) : List (K × Nat) :=
  (key, node) :: mapDelete m key

/-! ## The heap -/

/-- Read through a pointer: `p.field` reads a field of `deref heap p`. -/
def deref (heap : List (Node K V)) (p : Option Nat) : Except Fault (Node K V) :=
  match p with
  | none => .error .nilDeref
  | some a =>
    match heap[a]? with
    | none => .error .badAddr
    | some n => .ok n

/-- Write through a pointer: `p.field = x` is `modify heap p (set field to x)`. -/
def modify (heap : List (Node K V)) (p : Option Nat) (f : Node K V → Node K V) :
    Except Fault (List (Node K V)) :=
  match p with
  | none => .error .nilDeref
  | some a =>
    match heap[a]? with
    | none => .error .badAddr
    | some n => .ok (heap.set a (f n))

/-- Assignment `p.next = x`. -/
def setNext (heap : List (Node K V)) (p x : Option Nat) : Except Fault (List (Node K V)) :=
  modify heap p (fun n => { n with next := x })

/-- Assignment `p.prev = x`. -/
def setPrev (heap : List (Node K V)) (p x : Option Nat) : Except Fault (List (Node K V)) :=
  modify heap p (fun n => { n with prev := x })

/-- Assignment `p.value = x`. -/
def setValue (heap : List (Node K V)) (p : Option Nat) (x : V) : Except Fault (List (Node K V)) :=
  modify heap p (fun n => { n with value := x })

/-- Assignment `p.exp = x`. -/
def setExp (heap : List (Node K V)) (p : Option Nat) (x : Int) : Except Fault (List (Node K V)) :=
  modify heap p (fun n => { n with exp := x })

/-! ## The operations of `cache.go` -/

/-- NewCache: an empty map, `head` and `tail` nil.  (The sweeper goroutine it
starts is not part of the state.) -/
def NewCache (cap : Int) : LRUCache K V :=
  { items := [], cap := cap, head := none, tail := none, heap := [] }

/-- Cap: the capacity given at construction. -/
def Cap (cache : LRUCache K V) : Int := cache.cap

/-- Len: `len(cache.items)`. -/
def Len (cache : LRUCache K V) : Int := (cache.items.length : Int)

/-- The eviction block of `add` (lines 92-96), run when the map is full. -/
def evict (cache : LRUCache K V) : Except Fault (LRUCache K V) := do
  -- delete(cache.items, cache.tail.key)
  let t ← deref cache.heap cache.tail
  let items := mapDelete cache.items t.key
  -- cache.tail.prev.next = nil
  let heap ← setNext cache.heap t.prev none
  -- cache.tail = cache.tail.prev
  let t ← deref heap cache.tail
  pure { cache with items := items, heap := heap, tail := t.prev }

/-- The two guarded assignments that take the node `val` out of the list
(lines 110-115, again 142-147 and 162-167). -/
def unlink (heap : List (Node K V)) (val : Nat) : Except Fault (List (Node K V)) := do
  -- if val.prev != nil { val.prev.next = val.next }
  let v ← deref heap (some val)
  let heap ← (if v.prev ≠ none then setNext heap v.prev v.next else pure heap)
  -- if val.next != nil { val.next.prev = val.prev }
  let v ← deref heap (some val)
  (if v.next ≠ none then setPrev heap v.next v.prev else pure heap)

/-- The relinking block of `add` (lines 109-121), run for a present key whose
node `val` is not `head`. -/
def relink (cache : LRUCache K V) (val : Nat) : Except Fault (LRUCache K V) := do
  let heap ← unlink cache.heap val
  -- val.next = cache.head; val.prev = nil
  let heap ← setNext heap (some val) cache.head
  let heap ← setPrev heap (some val) none
  -- cache.head.prev = val; cache.head = val
  let heap ← setPrev heap cache.head (some val)
  pure { cache with heap := heap, head := some val }

/-- The node `add` allocates for an absent key: `&Node{key: key, value: value}`
followed by `if ttl != 0 { node.exp = time.Now().Add(ttl) }`. -/
def freshNode (key : K) (value : V) (ttl now : Int) : Node K V :=
  { key := key, value := value, exp := if ttl ≠ 0 then now + ttl else 0,
    prev := none, next := none }

/-- The unexported `add`; `now` is what `time.Now()` returns if it is read. -/
def add (cache : LRUCache K V) (key : K) (value : V) (ttl now : Int) :
    Except Fault (LRUCache K V) :=
  match mapLookup cache.items key with
  | none => do
    -- node := &Node{key: key, value: value}; if ttl != 0 { node.exp = ... }
    let node := cache.heap.length
    let cache := { cache with heap := cache.heap ++ [freshNode key value ttl now] }
    let cache ←
      (if cache.items.length = 0 then
        pure { cache with head := some node, tail := some node }
      else do
        let cache ← (if (cache.items.length : Int) = cache.cap then evict cache else pure cache)
        -- node.next = cache.head; cache.head.prev = node; cache.head = node
        let heap ← setNext cache.heap (some node) cache.head
        let heap ← setPrev heap cache.head (some node)
        pure { cache with heap := heap, head := some node })
    -- cache.items[key] = node
    pure { cache with items := mapStore cache.items key node }
  | some val => do
    -- if ttl != 0 { val.exp = ... }; val.value = value
    let heap ← (if ttl ≠ 0 then setExp cache.heap (some val) (now + ttl) else pure cache.heap)
    let heap ← setValue heap (some val) value
    let cache := { cache with heap := heap }
    (if cache.head ≠ some val then relink cache val else pure cache)

/-- Add: `add` with ttl 0. -/
def Add (cache : LRUCache K V) (key : K) (value : V) : Except Fault (LRUCache K V) :=
  add cache key value 0 0

/-- AddWithTTL: `add` with the given ttl. -/
def AddWithTTL (cache : LRUCache K V) (key : K) (value : V) (ttl now : Int) :
    Except Fault (LRUCache K V) :=
  add cache key value ttl now

/-- Get: the value stored for the key and `true`, or `(nil, false)`.  It only
reads the state. -/
def Get (cache : LRUCache K V) (key : K) : Except Fault (Option V × Bool) :=
  match mapLookup cache.items key with
  | some val => do
    let v ← deref cache.heap (some val)
    pure (some v.value, true)
  | none => pure (none, false)

/-- Remove: unlink the node from its neighbours and delete the key. -/
def Remove (cache : LRUCache K V) (key : K) : Except Fault (LRUCache K V) :=
  match mapLookup cache.items key with
  | some val => do
    let heap ← unlink cache.heap val
    -- delete(cache.items, key)
    pure { cache with heap := heap, items := mapDelete cache.items key }
  | none => pure cache

/-- The loop of `Clear` (lines 61-64): `for cache.head != cache.tail`. -/
def clearLoop : Nat → LRUCache K V → Except Fault (LRUCache K V)
  | 0, _ => .error .fuel
  | fuel + 1, cache =>
    if cache.head ≠ cache.tail then do
      -- cache.head = cache.head.next
      let h ← deref cache.heap cache.head
      let cache := { cache with head := h.next }
      -- cache.head.prev = nil
      let heap ← setPrev cache.heap cache.head none
      clearLoop fuel { cache with heap := heap }
    else pure cache

/-- Clear: empty the map, run the loop, set `head` and `tail` to nil. -/
def Clear (fuel : Nat) (cache : LRUCache K V) : Except Fault (LRUCache K V) := do
  let cache ← clearLoop fuel { cache with items := [] }
  pure { cache with head := none, tail := none }

/-! ## Sequences of calls -/

/-- One call of the public interface. -/
inductive Op (K V : Type) where
  | Add (key : K) (value : V)
  | AddWithTTL (key : K) (value : V) (ttl now : Int)
  | Get (key : K)
  | Remove (key : K)
  | Clear
deriving DecidableEq, Repr

/-- The state after one call; `fuel` bounds the loop of `Clear`. -/
def step (fuel : Nat) (cache : LRUCache K V) : Op K V → Except Fault (LRUCache K V)
  | .Add key value => Add cache key value
  | .AddWithTTL key value ttl now => AddWithTTL cache key value ttl now
  | .Get key => do
    let _ ← Get cache key
    pure cache
  | .Remove key => Remove cache key
  | .Clear => Clear fuel cache

/-- The state after a sequence of calls, each of which has to complete. -/
def run (fuel : Nat) (cache : LRUCache K V) : List (Op K V) → Except Fault (LRUCache K V)
  | [] => pure cache
  | op :: ops => do
    let cache ← step fuel cache op
    run fuel cache ops

/-- A state reached from `NewCache cap` by completed calls. -/
def Reachable (cap : Int) (cache : LRUCache K V) : Prop :=
  ∃ fuel ops, run fuel (NewCache cap) ops = .ok cache

/-- Whether the key may be in the store after the calls `ops`, judging by the
calls alone: `b` says so for the start, an `Add` or `AddWithTTL` of the key
makes it true, a `Remove` of the key or a `Clear` makes it false. -/
def mayHold (key : K) : Bool → List (Op K V) → Bool
  | b, [] => b
  | b, .Add k _ :: ops => mayHold key (b || decide (k = key)) ops
  | b, .AddWithTTL k _ _ _ :: ops => mayHold key (b || decide (k = key)) ops
  | b, .Get _ :: ops => mayHold key b ops
  | b, .Remove k :: ops => mayHold key (b && !decide (k = key)) ops
  | _, .Clear :: ops => mayHold key false ops

/-- The test of `checkExpired` on one entry (lines 160-161): the expiry instant
is set, `!val.exp.IsZero()`, and lies before the clock reading,
`time.Now().After(val.exp)`. -/
def expired (now : Int) (n : Node K V) : Bool :=
  decide (n.exp ≠ 0) && decide (n.exp < now)

/-- The test of `checkExpired` on the node at the address `a`. -/
def expiredAt (now : Int) (heap : List (Node K V)) (a : Nat) : Bool :=
  match heap[a]? with
  | some n => expired now n
  | none => false

/-- The `range` loop of `checkExpired` (lines 159-172) over the entries
`entries` of the map, in the order in which the runtime yields them: an expired
entry is unlinked and its key deleted.  The source reads `time.Now()` for each
entry whose expiry is set; here the whole round sees the one reading `now`. -/
def sweepOver (now : Int) : List (K × Nat) → LRUCache K V → Except Fault (LRUCache K V)
  | [], cache => pure cache
  | (key, val) :: entries, cache => do
    let v ← deref cache.heap (some val)
    if expired now v then do
      let heap ← unlink cache.heap val
      -- delete(cache.items, key)
      sweepOver now entries { cache with heap := heap, items := mapDelete cache.items key }
    else sweepOver now entries cache

/-- One round of the endless loop of `checkExpired` (lines 158-173), with the
map ranged over in the order of the list `items`. -/
def checkExpired (now : Int) (cache : LRUCache K V) : Except Fault (LRUCache K V) :=
  sweepOver now cache.items cache

/-- A state reached from `NewCache cap` by completed calls and rounds of
`checkExpired`; a round may range over the map in any order. -/
inductive Reached (cap : Int) : LRUCache K V → Prop where
  | init : Reached cap (NewCache cap)
  | call (fuel : Nat) (s s' : LRUCache K V) (op : Op K V) :
      Reached cap s → step fuel s op = .ok s' → Reached cap s'
  | sweep (now : Int) (s s' : LRUCache K V) (order : List (K × Nat)) :
      Reached cap s → order.Perm s.items → sweepOver now order s = .ok s' → Reached cap s'

/-- What an operation does to the lock and to the shared state, in program
order. -/
inductive Event where
  | RLock
  | RUnlock
  | Lock
  | Unlock
  | readItems
  | readNode (a : Nat)
deriving DecidableEq, Repr

/-- The events of `Get` (lines 127-136): `RLock`, the map read, `RUnlock`, and
for a key that is present the read of `val.value` in the `return`. -/
def GetEvents (cache : LRUCache K V) (key : K) : List Event :=
  match mapLookup cache.items key with
  | some val => [.RLock, .readItems, .RUnlock, .readNode val]
  | none => [.RLock, .readItems, .RUnlock]

/-- The events of `Len` (lines 49-54): `RLock`, `len(cache.items)`, `RUnlock`. -/
def LenEvents (_cache : LRUCache K V) : List Event :=
  [.RLock, .readItems, .RUnlock]

/-- Every read of shared state in the trace happens with the lock held;
`held` says whether it is held at the start. -/
def lockedReads (held : Bool) : List Event → Bool
  | [] => true
  | .RLock :: es => lockedReads true es
  | .Lock :: es => lockedReads true es
  | .RUnlock :: es => lockedReads false es
  | .Unlock :: es => lockedReads false es
  | .readItems :: es => held && lockedReads held es
  | .readNode _ :: es => held && lockedReads held es

/-- The walk of `TestRemove` (lines 176-184): from `cur`, follow `next` until
`tail`, collecting the key of every node stepped onto. -/
def walk (cache : LRUCache K V) : Nat → Option Nat → Except Fault (List K)
  | 0, _ => .error .fuel
  | fuel + 1, cur =>
    if cur ≠ cache.tail then do
      let c ← deref cache.heap cur
      let n ← deref cache.heap c.next
      let rest ← walk cache fuel c.next
      pure (n.key :: rest)
    else pure []

/-- The state a sequence of calls that needs no fuel leaves behind
(the fresh cache if one of them faults). -/
def after (cap : Int) (ops : List (Op K V)) : LRUCache K V :=
  match run 0 (NewCache cap) ops with
  | .ok cache => cache
  | .error _ => NewCache cap

/-- The state in which `Clear` is entered after `Add(1, 10)`, `Add(2, 20)`,
`Add(3, 30)`, `Remove(3)`, `Add(2, 21)` on a cache of capacity 3, once the loop
has run one round: the nodes of keys 2 and 3 point at each other through
`next`, and `tail` is the node of key 1. -/
def cycleHeap : List (Node Nat Nat) :=
  [{ key := 1, value := 10, exp := 0, prev := none, next := none },
   { key := 2, value := 21, exp := 0, prev := none, next := some 2 },
   { key := 3, value := 30, exp := 0, prev := none, next := some 1 }]

/-- The looping state with `head` at the address `h`. -/
def cycleState (h : Nat) : LRUCache Nat Nat :=
  { items := [], cap := 3, head := some h, tail := some 0, heap := cycleHeap }

/-! ## The list built by adding distinct keys to a fresh cache -/

/-- The node at address `i` once `len` distinct keys have been added: its
`prev` is the node added after it, its `next` the node added before it. -/
def chainNode (len i : Nat) (kv : K × V) : Node K V :=
  { key := kv.1, value := kv.2, exp := 0,
    prev := if i + 1 < len then some (i + 1) else none,
    next := if i = 0 then none else some (i - 1) }

/-- The heap once the keys of `kvs` have been added in order. -/
def chainHeap (kvs : List (K × V)) : List (Node K V) :=
  kvs.enum.map (fun p => chainNode kvs.length p.1 p.2)

/-- The map once the keys of `kvs` have been added in order. -/
def chainItems (kvs : List (K × V)) : List (K × Nat) :=
  (kvs.enum.map (fun p => (p.2.1, p.1))).reverse

/-- The cache once the keys of `kvs` have been added in order. -/
def chainState (cap : Int) (kvs : List (K × V)) : LRUCache K V :=
  { items := chainItems kvs, cap := cap,
    head := if kvs.length = 0 then none else some (kvs.length - 1),
    tail := if kvs.length = 0 then none else some 0,
    heap := chainHeap kvs }

/-- The calls `Add(k1, v1)`, ..., `Add(kn, vn)`. -/
def adds (kvs : List (K × V)) : List (Op K V) :=
  kvs.map (fun kv => Op.Add kv.1 kv.2)

/-! ## Well-formedness of the model -/

/-- A pointer that is nil or an address below `len`. -/
def InB (len : Nat) (p : Option Nat) : Prop := ∀ a, p = some a → a < len

/-- Every link of every node of the heap is nil or an address of the heap. -/
def LinksOK (heap : List (Node K V)) : Prop :=
  ∀ (a : Nat) (n : Node K V), heap[a]? = some n → InB heap.length n.prev ∧ InB heap.length n.next

/-- What the Go runtime guarantees of any state: a map holds a key once, and a
pointer is nil or refers to an allocated node. -/
structure Valid (s : LRUCache K V) : Prop where
  nodup : (s.items.map Prod.fst).Nodup
  items : ∀ e ∈ s.items, e.2 < s.heap.length
  head : InB s.heap.length s.head
  tail : InB s.heap.length s.tail
  links : LinksOK s.heap

/-- What `unlink` does to the node at address `i`, in terms of the node `v`
taken out: the node before `v` gets the `next` of `v`, the node after `v` gets
the `prev` of `v`. -/
def unlinked (v : Node K V) (i : Nat) (n : Node K V) : Node K V :=
  { n with next := if v.prev = some i then v.next else n.next,
           prev := if v.next = some i then v.prev else n.prev }

/-- What `relink` does to the node at address `i`: after the unlinking of the
node `v` at `val`, that node gets the old head `h` as `next` and no `prev`, and
the old head gets `val` as `prev`. -/
def relinked (v : Node K V) (h val i : Nat) (n : Node K V) : Node K V :=
  { n with next := if i = val then some h else (unlinked v i n).next,
           prev := if i = h then some val else if i = val then none else (unlinked v i n).prev }

/-- The structure the operations keep in spite of the stale `head` and `tail`
that `Remove` leaves behind: every entry of the map points at a node with its
key; the node after an entry of the map points back at it; the node at `head`
has no `prev`; and `head` is set while the map is not empty. -/
structure Inv (s : LRUCache K V) : Prop where
  valid : Valid s
  keys : ∀ (k : K) (a : Nat), (k, a) ∈ s.items → ∃ n, s.heap[a]? = some n ∧ n.key = k
  back : ∀ (k : K) (a : Nat) (n : Node K V) (y : Nat), (k, a) ∈ s.items →
    s.heap[a]? = some n → n.next = some y → ∃ m, s.heap[y]? = some m ∧ m.prev = some a
  headPrev : ∀ (h : Nat) (m : Node K V), s.head = some h → s.heap[h]? = some m → m.prev = none
  headSet : s.items ≠ [] → s.head ≠ none

end Defs

/-! ## Lemmas on the map and the heap -/

section Lemmas

set_option linter.unusedSectionVars false

variable {K V : Type} [DecidableEq K]

theorem bind_ok_iff {ε α β : Type} (x : Except ε α) (f : α → Except ε β) (b : β) :
    (x >>= f) = .ok b ↔ ∃ a, x = .ok a ∧ f a = .ok b := by
  cases x <;> simp [bind, Except.bind]

theorem mapLookup_eq_none_iff (m : List (K × Nat)) (key : K) :
    mapLookup m key = none ↔ key ∉ m.map Prod.fst := by
  induction m with
  | nil => simp [mapLookup]
  | cons e m ih =>
    by_cases h : e.1 = key
    · simp [mapLookup, h]
    · have h' : ¬ key = e.1 := fun h'' => h h''.symm
      simp [mapLookup, h, h', ih]

theorem mapLookup_mem (m : List (K × Nat)) (key : K) (a : Nat)
    (h : mapLookup m key = some a) : (key, a) ∈ m := by
  induction m with
  | nil => simp [mapLookup] at h
  | cons e m ih =>
    by_cases hk : e.1 = key
    · simp [mapLookup, hk] at h
      have : e = (key, a) := Prod.ext hk h
      simp [this]
    · simp [mapLookup, hk] at h
      exact List.mem_cons_of_mem _ (ih h)

theorem mapDelete_cons (e : K × Nat) (m : List (K × Nat)) (key : K) :
    mapDelete (e :: m) key = if e.1 = key then mapDelete m key else e :: mapDelete m key := by
  by_cases h : e.1 = key <;> simp [mapDelete, List.filter, h]

theorem mapLookup_delete_self (m : List (K × Nat)) (key : K) :
    mapLookup (mapDelete m key) key = none := by
  rw [mapLookup_eq_none_iff]
  simp [mapDelete, List.mem_filter]

theorem mapLookup_delete_ne (m : List (K × Nat)) (key key' : K) (h : key' ≠ key) :
    mapLookup (mapDelete m key) key' = mapLookup m key' := by
  induction m with
  | nil => simp [mapDelete, mapLookup]
  | cons e m ih =>
    rw [mapDelete_cons]
    by_cases hk : e.1 = key
    · have hk' : ¬ e.1 = key' := fun h' => h (h'.symm.trans hk)
      rw [if_pos hk, ih]
      simp [mapLookup, hk']
    · rw [if_neg hk]
      by_cases hk' : e.1 = key'
      · simp [mapLookup, hk']
      · simp [mapLookup, hk', ih]

theorem mapLookup_store_self (m : List (K × Nat)) (key : K) (a : Nat) :
    mapLookup (mapStore m key a) key = some a := by
  simp [mapStore, mapLookup]

theorem mapLookup_store_ne (m : List (K × Nat)) (key key' : K) (a : Nat) (h : key' ≠ key) :
    mapLookup (mapStore m key a) key' = mapLookup m key' := by
  have h' : ¬ key = key' := fun h'' => h h''.symm
  simp [mapStore, mapLookup, h', mapLookup_delete_ne m key key' h]

theorem mapDelete_mem (m : List (K × Nat)) (key : K) (e : K × Nat)
    (h : e ∈ mapDelete m key) : e ∈ m ∧ e.1 ≠ key := by
  simpa [mapDelete, List.mem_filter] using h

theorem mapDelete_of_not_mem (m : List (K × Nat)) (key : K) (h : key ∉ m.map Prod.fst) :
    mapDelete m key = m := by
  unfold mapDelete
  rw [List.filter_eq_self]
  intro e he
  have : e.1 ≠ key := fun h' => h (h' ▸ List.mem_map_of_mem Prod.fst he)
  simpa using this

theorem mapDelete_nodup (m : List (K × Nat)) (key : K) (h : (m.map Prod.fst).Nodup) :
    ((mapDelete m key).map Prod.fst).Nodup := by
  unfold mapDelete
  exact h.sublist ((List.filter_sublist m).map Prod.fst)

theorem mapStore_nodup (m : List (K × Nat)) (key : K) (a : Nat) (h : (m.map Prod.fst).Nodup) :
    ((mapStore m key a).map Prod.fst).Nodup := by
  unfold mapStore
  simp only [List.map_cons, List.nodup_cons]
  refine ⟨?_, mapDelete_nodup m key h⟩
  intro hmem
  obtain ⟨e, he, hk⟩ := List.mem_map.1 hmem
  exact (mapDelete_mem m key e he).2 hk

theorem mapDelete_length (m : List (K × Nat)) (key : K) (h : (m.map Prod.fst).Nodup)
    (hk : key ∈ m.map Prod.fst) : (mapDelete m key).length + 1 = m.length := by
  induction m with
  | nil => simp at hk
  | cons e m ih =>
    simp only [List.map_cons, List.nodup_cons] at h
    rw [mapDelete_cons]
    by_cases he : e.1 = key
    · have hnot : key ∉ m.map Prod.fst := he ▸ h.1
      simp [he, mapDelete_of_not_mem m key hnot]
    · have hk' : key ∈ m.map Prod.fst := by
        simp only [List.map_cons, List.mem_cons] at hk
        rcases hk with hk | hk
        · exact absurd hk.symm he
        · exact hk
      simp [he, ih h.2 hk']

omit [DecidableEq K] in
theorem deref_ok_iff (heap : List (Node K V)) (p : Option Nat) (n : Node K V) :
    deref heap p = .ok n ↔ ∃ a, p = some a ∧ heap[a]? = some n := by
  cases p with
  | none => simp [deref]
  | some a =>
    cases h : heap[a]? <;> simp [deref, h]

omit [DecidableEq K] in
theorem modify_ok_iff (heap heap' : List (Node K V)) (p : Option Nat) (f : Node K V → Node K V) :
    modify heap p f = .ok heap' ↔
      ∃ a n, p = some a ∧ heap[a]? = some n ∧ heap' = heap.set a (f n) := by
  cases p with
  | none => simp [modify]
  | some a =>
    cases h : heap[a]? with
    | none => simp [modify, h]
    | some n =>
      simp only [modify, h, Except.ok.injEq, Option.some.injEq, exists_and_left, exists_eq_left']
      constructor
      · intro h'; exact h'.symm
      · intro h'; exact h'.symm

omit [DecidableEq K] in
theorem deref_of_lt (heap : List (Node K V)) (a : Nat) (h : a < heap.length) :
    deref heap (some a) = .ok (heap[a]) := by
  simp [deref, List.getElem?_eq_getElem h]

omit [DecidableEq K] in
theorem modify_of_lt (heap : List (Node K V)) (a : Nat) (f : Node K V → Node K V)
    (h : a < heap.length) : modify heap (some a) f = .ok (heap.set a (f heap[a])) := by
  simp [modify, List.getElem?_eq_getElem h]

theorem pure_ok_iff {ε α : Type} (a b : α) : (pure a : Except ε α) = .ok b ↔ a = b := by
  simp [pure, Except.pure]

theorem InB_none (len : Nat) : InB len none := by
  intro a h; cases h

theorem InB_some (len a : Nat) (h : a < len) : InB len (some a) := by
  intro b hb; cases hb; exact h

theorem InB_mono (len len' : Nat) (p : Option Nat) (hle : len ≤ len') (h : InB len p) :
    InB len' p := fun a ha => Nat.lt_of_lt_of_le (h a ha) hle

omit [DecidableEq K] in
theorem modify_length (heap heap' : List (Node K V)) (p : Option Nat) (f : Node K V → Node K V)
    (h : modify heap p f = .ok heap') : heap'.length = heap.length := by
  obtain ⟨a, n, -, -, rfl⟩ := (modify_ok_iff heap heap' p f).1 h
  simp

omit [DecidableEq K] in
theorem modify_links (heap heap' : List (Node K V)) (p : Option Nat) (f : Node K V → Node K V)
    (hl : LinksOK heap) (h : modify heap p f = .ok heap')
    (hf : ∀ n, InB heap.length n.prev ∧ InB heap.length n.next →
      InB heap.length (f n).prev ∧ InB heap.length (f n).next) :
    LinksOK heap' := by
  obtain ⟨a, n, -, hn, rfl⟩ := (modify_ok_iff heap heap' p f).1 h
  intro i m hm
  rw [List.length_set]
  rw [List.getElem?_set] at hm
  by_cases hai : a = i
  · rw [if_pos hai] at hm
    split at hm
    · cases hm
      exact hf n (hl a n hn)
    · cases hm
  · rw [if_neg hai] at hm
    exact hl i m hm

omit [DecidableEq K] in
theorem setNext_links (heap heap' : List (Node K V)) (p x : Option Nat)
    (hl : LinksOK heap) (hx : InB heap.length x) (h : setNext heap p x = .ok heap') :
    LinksOK heap' ∧ heap'.length = heap.length :=
  ⟨modify_links heap heap' p _ hl h (fun _ hn => ⟨hn.1, hx⟩), modify_length heap heap' p _ h⟩

omit [DecidableEq K] in
theorem setPrev_links (heap heap' : List (Node K V)) (p x : Option Nat)
    (hl : LinksOK heap) (hx : InB heap.length x) (h : setPrev heap p x = .ok heap') :
    LinksOK heap' ∧ heap'.length = heap.length :=
  ⟨modify_links heap heap' p _ hl h (fun _ hn => ⟨hx, hn.2⟩), modify_length heap heap' p _ h⟩

omit [DecidableEq K] in
theorem setValue_links (heap heap' : List (Node K V)) (p : Option Nat) (x : V)
    (hl : LinksOK heap) (h : setValue heap p x = .ok heap') :
    LinksOK heap' ∧ heap'.length = heap.length :=
  ⟨modify_links heap heap' p _ hl h (fun _ hn => hn), modify_length heap heap' p _ h⟩

omit [DecidableEq K] in
theorem setExp_links (heap heap' : List (Node K V)) (p : Option Nat) (x : Int)
    (hl : LinksOK heap) (h : setExp heap p x = .ok heap') :
    LinksOK heap' ∧ heap'.length = heap.length :=
  ⟨modify_links heap heap' p _ hl h (fun _ hn => hn), modify_length heap heap' p _ h⟩

omit [DecidableEq K] in
theorem deref_links (heap : List (Node K V)) (p : Option Nat) (n : Node K V)
    (hl : LinksOK heap) (h : deref heap p = .ok n) :
    InB heap.length n.prev ∧ InB heap.length n.next := by
  obtain ⟨a, -, hn⟩ := (deref_ok_iff heap p n).1 h
  exact hl a n hn

omit [DecidableEq K] in
theorem append_links (heap : List (Node K V)) (n : Node K V) (hl : LinksOK heap)
    (hp : n.prev = none) (hn : n.next = none) : LinksOK (heap ++ [n]) := by
  intro i m hm
  rw [List.length_append]
  rw [List.getElem?_append] at hm
  split at hm
  · have := hl i m hm
    exact ⟨InB_mono _ _ _ (Nat.le_add_right _ _) this.1, InB_mono _ _ _ (Nat.le_add_right _ _) this.2⟩
  · have hm' : m = n := by
      cases hi : i - heap.length with
      | zero => rw [hi] at hm; simpa using hm.symm
      | succ j => rw [hi] at hm; simp at hm
    subst hm'
    rw [hp, hn]
    exact ⟨InB_none _, InB_none _⟩

omit [DecidableEq K] in
theorem unlink_links (heap heap' : List (Node K V)) (val : Nat) (hl : LinksOK heap)
    (h : unlink heap val = .ok heap') : LinksOK heap' ∧ heap'.length = heap.length := by
  simp only [unlink, bind_ok_iff] at h
  obtain ⟨v, hv1, heap1, h1, v2, hv2, h2⟩ := h
  have hb1 := deref_links _ _ _ hl hv1
  have ⟨hl1, hlen1⟩ : LinksOK heap1 ∧ heap1.length = heap.length := by
    split at h1
    · exact setNext_links _ _ _ _ hl hb1.2 h1
    · simp only [pure_ok_iff] at h1; subst h1; exact ⟨hl, rfl⟩
  have hb2 := deref_links _ _ _ hl1 hv2
  split at h2
  · have := setPrev_links _ _ _ _ hl1 hb2.1 h2
    exact ⟨this.1, this.2.trans hlen1⟩
  · simp only [pure_ok_iff] at h2; subst h2; exact ⟨hl1, hlen1⟩

theorem Valid.evict (s s' : LRUCache K V) (hv : Valid s) (h : evict s = .ok s') : Valid s' := by
  simp only [LRU.evict, bind_ok_iff, pure_ok_iff] at h
  obtain ⟨t, ht, heap, hheap, t', ht', rfl⟩ := h
  obtain ⟨hl, hlen⟩ := setNext_links _ _ _ _ hv.links (InB_none _) hheap
  refine ⟨mapDelete_nodup _ _ hv.nodup, ?_, ?_, ?_, hl⟩
  · intro e he
    simp only [hlen]
    exact hv.items e (mapDelete_mem _ _ e he).1
  · simp only [hlen]; exact hv.head
  · exact (deref_links _ _ _ hl ht').1

theorem Valid.relink (s s' : LRUCache K V) (val : Nat) (hv : Valid s) (hval : val < s.heap.length)
    (h : relink s val = .ok s') : Valid s' := by
  simp only [LRU.relink, bind_ok_iff, pure_ok_iff] at h
  obtain ⟨heap2, h2, heap3, h3, heap4, h4, heap5, h5, rfl⟩ := h
  have ⟨hl2, hlen2⟩ := unlink_links _ _ _ hv.links h2
  have ⟨hl3, hlen3⟩ := setNext_links _ _ _ _ hl2 (by rw [hlen2]; exact hv.head) h3
  have ⟨hl4, hlen4⟩ := setPrev_links _ _ _ _ hl3 (InB_none _) h4
  have ⟨hl5, hlen5⟩ := setPrev_links _ _ _ _ hl4
    (InB_some _ _ (by rw [hlen4, hlen3, hlen2]; exact hval)) h5
  have hlen : heap5.length = s.heap.length := by rw [hlen5, hlen4, hlen3, hlen2]
  refine ⟨hv.nodup, ?_, ?_, ?_, hl5⟩
  · intro e he; simp only [hlen]; exact hv.items e he
  · simp only [hlen]; exact InB_some _ _ hval
  · simp only [hlen]; exact hv.tail

theorem Valid.NewCache (cap : Int) : Valid (NewCache cap : LRUCache K V) := by
  refine ⟨by simp [LRU.NewCache], ?_, InB_none _, InB_none _, ?_⟩
  · intro e he; simp [LRU.NewCache] at he
  · intro a n hn; simp [LRU.NewCache] at hn

theorem Valid.add (s s' : LRUCache K V) (key : K) (value : V) (ttl now : Int) (hv : Valid s)
    (h : add s key value ttl now = .ok s') : Valid s' := by
  unfold LRU.add at h
  split at h
  · -- the key is absent
    simp only [bind_ok_iff, pure_ok_iff] at h
    obtain ⟨s1, h1, rfl⟩ := h
    have hv0 : Valid { s with heap := s.heap ++ [freshNode key value ttl now] } := by
      refine ⟨hv.nodup, ?_, ?_, ?_, append_links _ _ hv.links rfl rfl⟩
      · intro e he
        have := hv.items e he
        simp only [List.length_append, List.length_singleton]; omega
      · exact InB_mono _ _ _ (by simp) hv.head
      · exact InB_mono _ _ _ (by simp) hv.tail
    have hnew : s.heap.length < (s.heap ++ [freshNode key value ttl now]).length := by simp
    have hs1 : Valid s1 ∧ s.heap.length < s1.heap.length := by
      split at h1
      · simp only [pure_ok_iff] at h1
        subst h1
        exact ⟨⟨hv0.nodup, hv0.items, InB_some _ _ hnew, InB_some _ _ hnew, hv0.links⟩, hnew⟩
      · simp only [bind_ok_iff, pure_ok_iff] at h1
        obtain ⟨s2, h2, heap3, h3, heap4, h4, rfl⟩ := h1
        have hs2 : Valid s2 ∧ s.heap.length < s2.heap.length := by
          split at h2
          · have hv2 := Valid.evict _ _ hv0 h2
            simp only [LRU.evict, bind_ok_iff, pure_ok_iff] at h2
            obtain ⟨t, -, heap, hheap, t', -, rfl⟩ := h2
            refine ⟨hv2, ?_⟩
            have := modify_length _ _ _ _ hheap
            simp only [this]; exact hnew
          · simp only [pure_ok_iff] at h2; subst h2; exact ⟨hv0, hnew⟩
        obtain ⟨hv2, hlt2⟩ := hs2
        have ⟨hl3, hlen3⟩ := setNext_links _ _ _ _ hv2.links hv2.head h3
        have ⟨hl4, hlen4⟩ := setPrev_links _ _ _ _ hl3 (InB_some _ _ (by rw [hlen3]; exact hlt2)) h4
        have hlen : heap4.length = s2.heap.length := by rw [hlen4, hlen3]
        refine ⟨⟨hv2.nodup, ?_, ?_, ?_, hl4⟩, ?_⟩
        · intro e he; simp only [hlen]; exact hv2.items e he
        · simp only [hlen]; exact InB_some _ _ hlt2
        · simp only [hlen]; exact hv2.tail
        · simp only [hlen]; exact hlt2
    obtain ⟨hv1, hlt1⟩ := hs1
    refine ⟨mapStore_nodup _ _ _ hv1.nodup, ?_, hv1.head, hv1.tail, hv1.links⟩
    intro e he
    simp only [mapStore, List.mem_cons] at he
    rcases he with rfl | he
    · exact hlt1
    · exact hv1.items e (mapDelete_mem _ _ e he).1
  · -- the key is present
    rename_i val hval
    have hvallt : val < s.heap.length := hv.items _ (mapLookup_mem _ _ _ hval)
    simp only [bind_ok_iff] at h
    obtain ⟨heap1, h1, heap2, h2, h3⟩ := h
    have ⟨hl1, hlen1⟩ : LinksOK heap1 ∧ heap1.length = s.heap.length := by
      split at h1
      · exact setExp_links _ _ _ _ hv.links h1
      · simp only [pure_ok_iff] at h1; subst h1; exact ⟨hv.links, rfl⟩
    have ⟨hl2, hlen2⟩ := setValue_links _ _ _ _ hl1 h2
    have hlen : heap2.length = s.heap.length := by rw [hlen2, hlen1]
    have hv2 : Valid { s with heap := heap2 } := by
      refine ⟨hv.nodup, ?_, ?_, ?_, hl2⟩
      · intro e he; simp only [hlen]; exact hv.items e he
      · simp only [hlen]; exact hv.head
      · simp only [hlen]; exact hv.tail
    split at h3
    · exact Valid.relink _ _ val hv2 (by simp only [hlen]; exact hvallt) h3
    · simp only [pure_ok_iff] at h3; subst h3; exact hv2

theorem Valid.Remove (s s' : LRUCache K V) (key : K) (hv : Valid s)
    (h : Remove s key = .ok s') : Valid s' := by
  unfold LRU.Remove at h
  split at h
  · simp only [bind_ok_iff, pure_ok_iff] at h
    obtain ⟨heap, hheap, rfl⟩ := h
    have ⟨hl, hlen⟩ := unlink_links _ _ _ hv.links hheap
    refine ⟨mapDelete_nodup _ _ hv.nodup, ?_, ?_, ?_, hl⟩
    · intro e he; simp only [hlen]; exact hv.items e (mapDelete_mem _ _ e he).1
    · simp only [hlen]; exact hv.head
    · simp only [hlen]; exact hv.tail
  · simp only [pure_ok_iff] at h; subst h; exact hv

theorem Valid.clearLoop (fuel : Nat) (s s' : LRUCache K V) (hv : Valid s)
    (h : clearLoop fuel s = .ok s') : Valid s' := by
  induction fuel generalizing s with
  | zero => simp [LRU.clearLoop] at h
  | succ fuel ih =>
    unfold LRU.clearLoop at h
    split at h
    · simp only [bind_ok_iff] at h
      obtain ⟨hd, hhd, heap, hheap, hrec⟩ := h
      have ⟨hl, hlen⟩ := setPrev_links _ _ _ _ hv.links (InB_none _) hheap
      have hv' : Valid { s with head := hd.next, heap := heap } := by
        refine ⟨hv.nodup, ?_, ?_, ?_, hl⟩
        · intro e he; simp only [hlen]; exact hv.items e he
        · simp only [hlen]; exact (deref_links _ _ _ hv.links hhd).2
        · simp only [hlen]; exact hv.tail
      exact ih _ hv' hrec
    · simp only [pure_ok_iff] at h; subst h; exact hv

theorem Valid.Clear (fuel : Nat) (s s' : LRUCache K V) (hv : Valid s)
    (h : Clear fuel s = .ok s') : Valid s' := by
  simp only [LRU.Clear, bind_ok_iff, pure_ok_iff] at h
  obtain ⟨s1, h1, rfl⟩ := h
  have hv0 : Valid { s with items := [] } := by
    refine ⟨by simp, ?_, hv.head, hv.tail, hv.links⟩
    intro e he; simp at he
  have hv1 := Valid.clearLoop fuel _ _ hv0 h1
  exact ⟨hv1.nodup, hv1.items, InB_none _, InB_none _, hv1.links⟩

theorem Valid.step (fuel : Nat) (s s' : LRUCache K V) (op : Op K V) (hv : Valid s)
    (h : step fuel s op = .ok s') : Valid s' := by
  cases op with
  | Add key value => exact Valid.add _ _ _ _ _ _ hv h
  | AddWithTTL key value ttl now => exact Valid.add _ _ _ _ _ _ hv h
  | Get key =>
    simp only [LRU.step, bind_ok_iff, pure_ok_iff] at h
    obtain ⟨_, -, rfl⟩ := h
    exact hv
  | Remove key => exact Valid.Remove _ _ _ hv h
  | Clear => exact Valid.Clear _ _ _ hv h

theorem Valid.run (fuel : Nat) (s s' : LRUCache K V) (ops : List (Op K V)) (hv : Valid s)
    (h : run fuel s ops = .ok s') : Valid s' := by
  induction ops generalizing s with
  | nil => simp only [LRU.run, pure_ok_iff] at h; subst h; exact hv
  | cons op ops ih =>
    simp only [LRU.run, bind_ok_iff] at h
    obtain ⟨s1, h1, h2⟩ := h
    exact ih _ (Valid.step _ _ _ _ hv h1) h2

theorem Reachable.valid (cap : Int) (s : LRUCache K V) (h : Reachable cap s) : Valid s := by
  obtain ⟨fuel, ops, h⟩ := h
  exact Valid.run fuel _ _ ops (Valid.NewCache cap) h

/-! ### Values stay where they are -/

theorem modify_value (heap heap' : List (Node K V)) (p : Option Nat) (f : Node K V → Node K V)
    (h : modify heap p f = .ok heap') (hf : ∀ n, (f n).value = n.value) (i : Nat) :
    (heap'[i]?).map (fun n => n.value) = (heap[i]?).map (fun n => n.value) := by
  obtain ⟨a, n, -, hn, rfl⟩ := (modify_ok_iff heap heap' p f).1 h
  rw [List.getElem?_set]
  by_cases hai : a = i
  · subst hai
    have hlt : a < heap.length := (List.getElem?_eq_some.1 hn).1
    simp [hlt, hn, hf]
  · simp [hai]

theorem setValue_value (heap heap' : List (Node K V)) (a : Nat) (x : V)
    (h : setValue heap (some a) x = .ok heap') :
    (heap'[a]?).map (fun n => n.value) = some x := by
  obtain ⟨b, n, hb, hn, rfl⟩ := (modify_ok_iff heap heap' _ _).1 h
  cases hb
  have hlt : a < heap.length := (List.getElem?_eq_some.1 hn).1
  simp [List.getElem?_set, hlt]

theorem unlink_value (heap heap' : List (Node K V)) (val : Nat)
    (h : unlink heap val = .ok heap') (i : Nat) :
    (heap'[i]?).map (fun n => n.value) = (heap[i]?).map (fun n => n.value) := by
  simp only [unlink, bind_ok_iff] at h
  obtain ⟨v, -, heap1, h1, v2, -, h2⟩ := h
  have e1 : (heap1[i]?).map (fun n => n.value) = (heap[i]?).map (fun n => n.value) := by
    split at h1
    · exact modify_value _ _ _ _ h1 (fun _ => rfl) i
    · simp only [pure_ok_iff] at h1; subst h1; rfl
  split at h2
  · exact (modify_value _ _ _ _ h2 (fun _ => rfl) i).trans e1
  · simp only [pure_ok_iff] at h2; subst h2; exact e1

theorem evict_value (s s' : LRUCache K V) (h : evict s = .ok s') (i : Nat) :
    (s'.heap[i]?).map (fun n => n.value) = (s.heap[i]?).map (fun n => n.value) := by
  simp only [evict, bind_ok_iff, pure_ok_iff] at h
  obtain ⟨t, -, heap, hheap, t', -, rfl⟩ := h
  exact modify_value _ _ _ _ hheap (fun _ => rfl) i

theorem relink_value (s s' : LRUCache K V) (val : Nat) (h : relink s val = .ok s') (i : Nat) :
    (s'.heap[i]?).map (fun n => n.value) = (s.heap[i]?).map (fun n => n.value) := by
  simp only [relink, bind_ok_iff, pure_ok_iff] at h
  obtain ⟨heap2, h2, heap3, h3, heap4, h4, heap5, h5, rfl⟩ := h
  exact (modify_value _ _ _ _ h5 (fun _ => rfl) i).trans
    ((modify_value _ _ _ _ h4 (fun _ => rfl) i).trans
      ((modify_value _ _ _ _ h3 (fun _ => rfl) i).trans (unlink_value _ _ _ h2 i)))

theorem relink_items (s s' : LRUCache K V) (val : Nat) (h : relink s val = .ok s') :
    s'.items = s.items := by
  simp only [relink, bind_ok_iff, pure_ok_iff] at h
  obtain ⟨heap2, -, heap3, -, heap4, -, heap5, -, rfl⟩ := h
  rfl

theorem Get_of_value (s : LRUCache K V) (key : K) (a : Nat) (v : V)
    (hk : mapLookup s.items key = some a)
    (hv : (s.heap[a]?).map (fun n => n.value) = some v) : Get s key = .ok (some v, true) := by
  unfold Get
  rw [hk]
  cases hn : s.heap[a]? with
  | none => rw [hn] at hv; simp at hv
  | some n =>
    rw [hn] at hv
    simp only [Option.map_some', Option.some.injEq] at hv
    simp [deref, hn, hv, bind, Except.bind, pure, Except.pure]

theorem Get_congr (s s' : LRUCache K V) (key : K)
    (hk : mapLookup s'.items key = mapLookup s.items key)
    (hv : ∀ i : Nat, (s'.heap[i]?).map (fun n => n.value) = (s.heap[i]?).map (fun n => n.value)) :
    Get s' key = Get s key := by
  unfold Get
  rw [hk]
  cases mapLookup s.items key with
  | none => rfl
  | some a =>
    have := hv a
    cases h1 : s.heap[a]? with
    | none =>
      rw [h1] at this
      have h2 : s'.heap[a]? = none := by simpa using this
      simp [deref, h1, h2, bind, Except.bind]
    | some n =>
      rw [h1] at this
      cases h2 : s'.heap[a]? with
      | none => rw [h2] at this; simp at this
      | some n' =>
        rw [h2] at this
        simp only [Option.map_some', Option.some.injEq] at this
        simp [deref, h1, h2, bind, Except.bind, pure, Except.pure, this]

/-- After a completed `add` the key reads back the value written. -/
theorem add_then_Get (s s' : LRUCache K V) (key : K) (value : V) (ttl now : Int)
    (h : add s key value ttl now = .ok s') : Get s' key = .ok (some value, true) := by
  unfold add at h
  split at h
  · simp only [bind_ok_iff, pure_ok_iff] at h
    obtain ⟨s1, h1, rfl⟩ := h
    refine Get_of_value _ key s.heap.length value (mapLookup_store_self _ _ _) ?_
    have h0 : ((s.heap ++ [freshNode key value ttl now])[s.heap.length]?).map (fun n => n.value)
        = some value := by
      rw [List.getElem?_concat_length]; rfl
    show (s1.heap[s.heap.length]?).map (fun n => n.value) = some value
    split at h1
    · simp only [pure_ok_iff] at h1; subst h1; exact h0
    · simp only [bind_ok_iff, pure_ok_iff] at h1
      obtain ⟨s2, h2, heap3, h3, heap4, h4, rfl⟩ := h1
      have e2 : (s2.heap[s.heap.length]?).map (fun n => n.value) = some value := by
        split at h2
        · exact (evict_value _ _ h2 _).trans h0
        · simp only [pure_ok_iff] at h2; subst h2; exact h0
      exact (modify_value _ _ _ _ h4 (fun _ => rfl) _).trans
        ((modify_value _ _ _ _ h3 (fun _ => rfl) _).trans e2)
  · rename_i val hval
    simp only [bind_ok_iff] at h
    obtain ⟨heap1, -, heap2, h2, h3⟩ := h
    have e2 := setValue_value _ _ _ _ h2
    split at h3
    · refine Get_of_value _ key val value ?_ ((relink_value _ _ _ h3 val).trans e2)
      rw [relink_items _ _ _ h3]; exact hval
    · simp only [pure_ok_iff] at h3; subst h3
      exact Get_of_value _ key val value hval e2

theorem unlink_total (heap : List (Node K V)) (val : Nat) (hl : LinksOK heap)
    (hval : val < heap.length) : ∃ heap', unlink heap val = .ok heap' := by
  have hb := hl val heap[val] (List.getElem?_eq_getElem hval)
  have step1 : ∃ heap1, (if heap[val].prev ≠ none then setNext heap heap[val].prev heap[val].next
      else pure heap) = Except.ok heap1 := by
    split
    · rename_i hne
      obtain ⟨p, hp⟩ := Option.ne_none_iff_exists'.1 hne
      rw [hp]
      exact ⟨_, modify_of_lt heap p _ (hb.1 p hp)⟩
    · exact ⟨heap, rfl⟩
  obtain ⟨heap1, h1⟩ := step1
  have ⟨hl1, hlen1⟩ : LinksOK heap1 ∧ heap1.length = heap.length := by
    split at h1
    · exact setNext_links _ _ _ _ hl hb.2 h1
    · simp only [pure_ok_iff] at h1; subst h1; exact ⟨hl, rfl⟩
  have hval1 : val < heap1.length := hlen1 ▸ hval
  have hb1 := hl1 val heap1[val] (List.getElem?_eq_getElem hval1)
  have step2 : ∃ heap2, (if heap1[val].next ≠ none then setPrev heap1 heap1[val].next heap1[val].prev
      else pure heap1) = Except.ok heap2 := by
    split
    · rename_i hne
      obtain ⟨p, hp⟩ := Option.ne_none_iff_exists'.1 hne
      rw [hp]
      exact ⟨_, modify_of_lt heap1 p _ (hb1.2 p hp)⟩
    · exact ⟨heap1, rfl⟩
  obtain ⟨heap2, h2⟩ := step2
  refine ⟨heap2, ?_⟩
  simp only [unlink, bind_ok_iff]
  exact ⟨_, deref_of_lt heap val hval, heap1, h1, _, deref_of_lt heap1 val hval1, h2⟩

theorem clearLoop_frame (fuel : Nat) (s s' : LRUCache K V) (h : clearLoop fuel s = .ok s') :
    s'.items = s.items ∧ s'.cap = s.cap := by
  induction fuel generalizing s with
  | zero => simp [clearLoop] at h
  | succ fuel ih =>
    unfold clearLoop at h
    split at h
    · simp only [bind_ok_iff] at h
      obtain ⟨hd, -, heap, -, hrec⟩ := h
      exact ih { s with head := hd.next, heap := heap } hrec
    · simp only [pure_ok_iff] at h; subst h; exact ⟨rfl, rfl⟩

/-- When `Clear` does complete it leaves an empty map, nil `head` and `tail`,
and the capacity as it was. -/
theorem Clear_ok_fresh (fuel : Nat) (s s' : LRUCache K V) (h : Clear fuel s = .ok s') :
    s'.items = [] ∧ s'.head = none ∧ s'.tail = none ∧ s'.cap = s.cap := by
  simp only [Clear, bind_ok_iff, pure_ok_iff] at h
  obtain ⟨s1, h1, rfl⟩ := h
  have := clearLoop_frame fuel _ _ h1
  exact ⟨this.1, rfl, rfl, this.2⟩

theorem run_append (fuel : Nat) (s : LRUCache K V) (ops ops' : List (Op K V)) :
    run fuel s (ops ++ ops') = (run fuel s ops).bind (fun s' => run fuel s' ops') := by
  induction ops generalizing s with
  | nil => rfl
  | cons op ops ih =>
    simp only [List.cons_append, run, bind, Except.bind]
    cases step fuel s op with
    | error e => rfl
    | ok s1 => exact ih s1

/-- The loop of `Clear` goes round the two nodes for as long as it has fuel. -/
theorem clearLoop_cycle (fuel : Nat) :
    clearLoop fuel (cycleState 1) = .error .fuel ∧ clearLoop fuel (cycleState 2) = .error .fuel := by
  induction fuel with
  | zero => exact ⟨rfl, rfl⟩
  | succ n ih =>
    have h1 : clearLoop (n + 1) (cycleState 1) = clearLoop n (cycleState 2) := rfl
    have h2 : clearLoop (n + 1) (cycleState 2) = clearLoop n (cycleState 1) := rfl
    exact ⟨h1.trans ih.2, h2.trans ih.1⟩

/-! ### Adding distinct keys -/

theorem chainHeap_length (kvs : List (K × V)) : (chainHeap kvs).length = kvs.length := by
  simp [chainHeap]

theorem chainHeap_getElem? (kvs : List (K × V)) (i : Nat) :
    (chainHeap kvs)[i]? = (kvs[i]?).map (chainNode kvs.length i) := by
  simp only [chainHeap, List.getElem?_map, List.getElem?_enum]
  cases kvs[i]? <;> rfl

theorem chainItems_append (kvs : List (K × V)) (kv : K × V) :
    chainItems (kvs ++ [kv]) = (kv.1, kvs.length) :: chainItems kvs := by
  simp [chainItems, List.enum_append, List.enumFrom_singleton]

theorem chainItems_keys (kvs : List (K × V)) :
    (chainItems kvs).map Prod.fst = (kvs.map Prod.fst).reverse := by
  induction kvs using List.reverseRecOn with
  | nil => rfl
  | append_singleton kvs kv ih => simp [chainItems_append, ih]

theorem chainItems_length (kvs : List (K × V)) : (chainItems kvs).length = kvs.length := by
  simp [chainItems]

theorem chainItems_lookup_none (kvs : List (K × V)) (key : K) (h : key ∉ kvs.map Prod.fst) :
    mapLookup (chainItems kvs) key = none := by
  rw [mapLookup_eq_none_iff, chainItems_keys]
  simpa using h

theorem chainItems_lookup (kvs : List (K × V)) (hnd : (kvs.map Prod.fst).Nodup) (i : Nat)
    (kv : K × V) (h : kvs[i]? = some kv) : mapLookup (chainItems kvs) kv.1 = some i := by
  induction kvs using List.reverseRecOn with
  | nil => simp at h
  | append_singleton kvs x ih =>
    rw [List.map_append, List.nodup_append] at hnd
    obtain ⟨hnd1, -, hdis⟩ := hnd
    rw [chainItems_append]
    rw [List.getElem?_append] at h
    split at h
    · have hmem : kv.1 ∈ kvs.map Prod.fst :=
        List.mem_map_of_mem Prod.fst (List.getElem?_mem h)
      have hne : ¬ x.1 = kv.1 := by
        intro he
        exact hdis hmem (by simp [he])
      simp only [mapLookup, hne, if_false]
      exact ih hnd1 h
    · rename_i hge
      have hi : i - kvs.length = 0 := by
        cases hi : i - kvs.length with
        | zero => rfl
        | succ j => rw [hi] at h; simp at h
      rw [hi] at h
      simp only [List.getElem?_cons_zero, Option.some.injEq] at h
      subst h
      have : i = kvs.length := by omega
      simp [mapLookup, this]

theorem modify_of_getElem? (heap : List (Node K V)) (a : Nat) (n : Node K V)
    (f : Node K V → Node K V) (h : heap[a]? = some n) :
    modify heap (some a) f = .ok (heap.set a (f n)) := by
  simp [modify, h]

theorem deref_of_getElem? (heap : List (Node K V)) (a : Nat) (n : Node K V)
    (h : heap[a]? = some n) : deref heap (some a) = .ok n := by
  simp [deref, h]

theorem Add_chain (cap : Int) (kvs : List (K × V)) (kv : K × V)
    (hnew : kv.1 ∉ kvs.map Prod.fst) (hlt : (kvs.length : Int) < cap) :
    Add (chainState cap kvs) kv.1 kv.2 = .ok (chainState cap (kvs ++ [kv])) := by
  unfold Add add
  simp only [chainState]
  rw [chainItems_lookup_none _ _ hnew]
  simp only [chainItems_length, chainHeap_length]
  by_cases h0 : kvs.length = 0
  · have : kvs = [] := List.length_eq_zero.1 h0
    subst this
    rfl
  · have hne : ¬ (kvs.length : Int) = cap := by omega
    simp only [h0, hne, if_false]
    have hj : kvs.length - 1 < kvs.length := by omega
    obtain ⟨x, hx⟩ : ∃ x, kvs[kvs.length - 1]? = some x :=
      ⟨kvs[kvs.length - 1], List.getElem?_eq_getElem hj⟩
    have e1 := modify_of_getElem? (chainHeap kvs ++ [freshNode kv.1 kv.2 0 0]) kvs.length
      (freshNode kv.1 kv.2 0 0) (fun n => { n with next := some (kvs.length - 1) })
      (by rw [← chainHeap_length kvs]; exact List.getElem?_concat_length _ _)
    have e2 := modify_of_getElem?
      ((chainHeap kvs ++ [freshNode kv.1 kv.2 0 0]).set kvs.length
        { freshNode kv.1 kv.2 0 0 with next := some (kvs.length - 1) })
      (kvs.length - 1) (chainNode kvs.length (kvs.length - 1) x)
      (fun n => { n with prev := some kvs.length })
      (by
        rw [List.getElem?_set_ne (by omega),
          List.getElem?_append_left (by rw [chainHeap_length]; exact hj),
          chainHeap_getElem?, hx]
        rfl)
    simp only [pure, Except.pure, bind, Except.bind, setNext, setPrev, e1, e2]
    have hitems : mapStore (chainItems kvs) kv.1 kvs.length = chainItems (kvs ++ [kv]) := by
      rw [chainItems_append, mapStore, mapDelete_of_not_mem]
      rw [chainItems_keys]; simpa using hnew
    have hheap : ((chainHeap kvs ++ [freshNode kv.1 kv.2 0 0]).set kvs.length
          { freshNode kv.1 kv.2 0 0 with next := some (kvs.length - 1) }).set (kvs.length - 1)
          { chainNode kvs.length (kvs.length - 1) x with prev := some kvs.length }
        = chainHeap (kvs ++ [kv]) := by
      apply List.ext_getElem?
      intro i
      rw [chainHeap_getElem?, List.getElem?_set, List.getElem?_set, List.getElem?_append,
        chainHeap_getElem?, chainHeap_length, List.getElem?_append]
      simp only [List.length_set, List.length_append, List.length_singleton, chainHeap_length]
      by_cases hi1 : kvs.length - 1 = i
      · subst hi1
        have h1 : kvs.length - 1 < kvs.length + 1 := by omega
        have h2 : kvs.length - 1 + 1 = kvs.length := by omega
        simp [hj, h1, hx, chainNode, h2]
      · by_cases hi2 : kvs.length = i
        · subst hi2
          simp [hi1, chainNode, freshNode, h0]
        · by_cases hi3 : i < kvs.length
          · have h3 : i + 1 < kvs.length := by omega
            have h4 : i + 1 < kvs.length + 1 := by omega
            simp only [hi1, hi2, hi3, if_false, if_true]
            cases kvs[i]? with
            | none => rfl
            | some y => simp [chainNode, h3, h4]
          · have h5 : kvs.length ≤ i := by omega
            have h6 : i - kvs.length ≠ 0 := by omega
            simp only [hi1, hi2, hi3, if_false]
            cases hd : i - kvs.length with
            | zero => exact absurd hd h6
            | succ d => simp
    rw [hitems, hheap]
    simp

theorem run_adds_chain (fuel : Nat) (cap : Int) (kvs : List (K × V))
    (hnd : (kvs.map Prod.fst).Nodup) (hle : (kvs.length : Int) ≤ cap) :
    run fuel (NewCache cap) (adds kvs) = .ok (chainState cap kvs) := by
  induction kvs using List.reverseRecOn with
  | nil => rfl
  | append_singleton kvs kv ih =>
    rw [List.map_append, List.nodup_append] at hnd
    obtain ⟨hnd1, -, hdis⟩ := hnd
    have hnew : kv.1 ∉ kvs.map Prod.fst := fun hmem => hdis hmem (by simp)
    have hlt : (kvs.length : Int) < cap := by
      simp only [List.length_append, List.length_singleton] at hle
      omega
    have hrun := ih hnd1 (le_of_lt hlt)
    simp only [adds, List.map_append, List.map_cons, List.map_nil] at hrun ⊢
    rw [run_append, hrun]
    simp only [Except.bind, run, step, bind, Add_chain cap kvs kv hnew hlt]
    rfl

/-- The eviction step in the cache filled by `kvs`, with the node for the new
key already allocated: the node of the first key goes, the node of the second
key becomes `tail`. -/
theorem evict_chain (cap : Int) (kvs : List (K × V)) (n : Node K V) (x0 x1 : K × V)
    (h0 : kvs[0]? = some x0) (h1 : kvs[1]? = some x1) :
    evict { chainState cap kvs with heap := chainHeap kvs ++ [n] } =
      .ok { items := mapDelete (chainItems kvs) x0.1, cap := cap,
            head := (chainState cap kvs).head, tail := some 1,
            heap := (chainHeap kvs ++ [n]).set 1
              { chainNode kvs.length 1 x1 with next := none } } := by
  have hl1 : 1 < kvs.length := (List.getElem?_eq_some.1 h1).1
  have hne : ¬ kvs.length = 0 := by omega
  have g0 : (chainHeap kvs ++ [n])[0]? = some (chainNode kvs.length 0 x0) := by
    rw [List.getElem?_append_left (by rw [chainHeap_length]; omega), chainHeap_getElem?, h0]
    rfl
  have g1 : (chainHeap kvs ++ [n])[1]? = some (chainNode kvs.length 1 x1) := by
    rw [List.getElem?_append_left (by rw [chainHeap_length]; omega), chainHeap_getElem?, h1]
    rfl
  have p0 : (chainNode kvs.length 0 x0).prev = some 1 := by simp [chainNode, hl1]
  have d0 := deref_of_getElem? _ 0 _ g0
  have m1 := modify_of_getElem? _ 1 _ (fun m => { m with next := none }) g1
  have d1 : deref ((chainHeap kvs ++ [n]).set 1 { chainNode kvs.length 1 x1 with next := none })
      (some 0) = .ok (chainNode kvs.length 0 x0) :=
    deref_of_getElem? _ 0 _ (by rw [List.getElem?_set_ne (by omega)]; exact g0)
  simp only [evict, chainState, hne, if_false, d0, bind, Except.bind, p0, setNext, m1, d1,
    pure, Except.pure]
  rfl

/-- The call `Add` of a new key on the cache filled by `kvs` to its capacity. -/
theorem Add_chain_full (kvs : List (K × V)) (kv x0 x1 : K × V)
    (h0 : kvs[0]? = some x0) (h1 : kvs[1]? = some x1) (hnew : kv.1 ∉ kvs.map Prod.fst) :
    ∃ s', Add (chainState (kvs.length : Int) kvs) kv.1 kv.2 = .ok s' ∧
      s'.items = mapStore (mapDelete (chainItems kvs) x0.1) kv.1 kvs.length ∧
      s'.cap = kvs.length ∧ s'.head = some kvs.length ∧ s'.tail = some 1 ∧
      ∀ i : Nat, (s'.heap[i]?).map (fun n => n.value) =
        ((chainHeap kvs ++ [freshNode kv.1 kv.2 0 0])[i]?).map (fun n => n.value) := by
  have hl1 : 1 < kvs.length := (List.getElem?_eq_some.1 h1).1
  have hne : ¬ kvs.length = 0 := by omega
  have hev := evict_chain (kvs.length : Int) kvs (freshNode kv.1 kv.2 0 0) x0 x1 h0 h1
  simp only [chainState, hne, if_false] at hev
  have m1 : modify (chainHeap kvs ++ [freshNode kv.1 kv.2 0 0]) (some 1)
      (fun m => { m with next := none })
      = .ok ((chainHeap kvs ++ [freshNode kv.1 kv.2 0 0]).set 1
          { chainNode kvs.length 1 x1 with next := none }) :=
    modify_of_getElem? _ 1 _ _ (by
      rw [List.getElem?_append_left (by rw [chainHeap_length]; omega), chainHeap_getElem?, h1]
      rfl)
  have hlen1 : ((chainHeap kvs ++ [freshNode kv.1 kv.2 0 0]).set 1
      { chainNode kvs.length 1 x1 with next := none }).length = kvs.length + 1 := by
    simp [chainHeap_length]
  obtain ⟨H2, e2⟩ : ∃ H2, setNext ((chainHeap kvs ++ [freshNode kv.1 kv.2 0 0]).set 1
      { chainNode kvs.length 1 x1 with next := none }) (some kvs.length)
      (some (kvs.length - 1)) = .ok H2 :=
    ⟨_, modify_of_lt _ kvs.length _ (by rw [hlen1]; omega)⟩
  have hlen2 : H2.length = kvs.length + 1 := (modify_length _ _ _ _ e2).trans hlen1
  obtain ⟨H3, e3⟩ : ∃ H3, setPrev H2 (some (kvs.length - 1)) (some kvs.length) = .ok H3 :=
    ⟨_, modify_of_lt _ (kvs.length - 1) _ (by rw [hlen2]; omega)⟩
  refine ⟨{ items := mapStore (mapDelete (chainItems kvs) x0.1) kv.1 kvs.length,
            cap := kvs.length, head := some kvs.length, tail := some 1, heap := H3 },
    ?_, rfl, rfl, rfl, rfl, ?_⟩
  · unfold Add add
    simp only [chainState]
    rw [chainItems_lookup_none _ _ hnew]
    simp only [chainItems_length, chainHeap_length, hne, if_false, if_true, hev, bind,
      Except.bind, e2, e3, pure, Except.pure]
  · intro i
    exact (modify_value _ _ _ _ e3 (fun _ => rfl) i).trans
      ((modify_value _ _ _ _ e2 (fun _ => rfl) i).trans
        (modify_value _ _ _ _ m1 (fun _ => rfl) i))

theorem deref_value_of (heap : List (Node K V)) (a : Nat) (v : V)
    (h : (heap[a]?).map (fun n => n.value) = some v) :
    (deref heap (some a)).map (fun n => n.value) = .ok v := by
  cases hn : heap[a]? with
  | none => rw [hn] at h; simp at h
  | some n =>
    rw [hn] at h
    simp only [Option.map_some', Option.some.injEq] at h
    simp [deref, hn, Except.map, h]

/-! ### The heap after a write, node by node -/

theorem modify_get (heap heap' : List (Node K V)) (p : Option Nat) (f : Node K V → Node K V)
    (h : modify heap p f = .ok heap') :
    ∃ a, p = some a ∧ a < heap.length ∧
      ∀ i : Nat, heap'[i]? = (heap[i]?).map (fun n => if i = a then f n else n) := by
  obtain ⟨a, n, hp, hn, rfl⟩ := (modify_ok_iff heap heap' p f).1 h
  have hlt : a < heap.length := (List.getElem?_eq_some.1 hn).1
  refine ⟨a, hp, hlt, ?_⟩
  intro i
  rw [List.getElem?_set]
  by_cases hai : a = i
  · subst hai
    simp [hlt, hn]
  · have hia : ¬ i = a := fun h' => hai h'.symm
    simp only [hai, hia, if_false]
    cases heap[i]? <;> rfl

theorem unlink_get (heap heap' : List (Node K V)) (val : Nat)
    (h : unlink heap val = .ok heap') :
    ∃ v, heap[val]? = some v ∧ ∀ i : Nat, heap'[i]? = (heap[i]?).map (unlinked v i) := by
  simp only [unlink, bind_ok_iff] at h
  obtain ⟨v, hv, heap1, h1, v2, hv2, h2⟩ := h
  obtain ⟨a, ha, hva⟩ := (deref_ok_iff _ _ _).1 hv
  cases ha
  obtain ⟨a2, ha2, hva2⟩ := (deref_ok_iff _ _ _).1 hv2
  cases ha2
  -- the heap after the first assignment
  have g1 : ∀ i : Nat, heap1[i]? =
      (heap[i]?).map (fun n => { n with next := if v.prev = some i then v.next else n.next }) := by
    intro i
    split at h1
    · obtain ⟨p, hp, -, hg⟩ := modify_get _ _ _ _ h1
      rw [hg i]
      cases hi : heap[i]? with
      | none => rfl
      | some n =>
        simp only [Option.map_some', Option.some.injEq]
        by_cases hip : i = p
        · subst hip; simp [hp]
        · have : ¬ some p = some i := fun h' => hip (Option.some.inj h').symm
          simp [hip, hp, this]
    · rename_i hnone
      simp only [pure_ok_iff] at h1
      subst h1
      have hpn : v.prev = none := by simpa using hnone
      cases hi : heap[i]? with
      | none => rfl
      | some n => simp [hpn]
  -- the node taken out is not changed by the first assignment
  have hv2eq : v2 = v := by
    have := g1 val
    rw [hva2, hva] at this
    simp only [Option.map_some', Option.some.injEq] at this
    rw [this]
    cases v
    simp
  subst hv2eq
  refine ⟨v2, hva, ?_⟩
  intro i
  split at h2
  · obtain ⟨q, hq, -, hg⟩ := modify_get _ _ _ _ h2
    rw [hg i, g1 i]
    cases hi : heap[i]? with
    | none => rfl
    | some n =>
      simp only [Option.map_some', Option.some.injEq, unlinked]
      by_cases hiq : i = q
      · subst hiq; simp [hq]
      · have : ¬ some q = some i := fun h' => hiq (Option.some.inj h').symm
        simp [hiq, hq, this]
  · rename_i hnone
    simp only [pure_ok_iff] at h2
    subst h2
    have hqn : v2.next = none := by simpa using hnone
    rw [g1 i]
    cases hi : heap[i]? with
    | none => rfl
    | some n => simp [unlinked, hqn]

theorem getElem?_map_some (heap heap' : List (Node K V)) (g : Nat → Node K V → Node K V)
    (hg : ∀ i : Nat, heap'[i]? = (heap[i]?).map (g i)) (i : Nat) (n' : Node K V)
    (h : heap'[i]? = some n') : ∃ n, heap[i]? = some n ∧ n' = g i n := by
  rw [hg i] at h
  cases hn : heap[i]? with
  | none => rw [hn] at h; simp at h
  | some n =>
    rw [hn] at h
    simp only [Option.map_some', Option.some.injEq] at h
    exact ⟨n, rfl, h.symm⟩

theorem length_of_getElem?_map (heap heap' : List (Node K V)) (g : Nat → Node K V → Node K V)
    (hg : ∀ i : Nat, heap'[i]? = (heap[i]?).map (g i)) : heap'.length = heap.length := by
  apply Nat.le_antisymm
  · by_contra hc
    have hlt : heap.length < heap'.length := by omega
    have h1 := hg heap.length
    rw [List.getElem?_eq_getElem hlt, List.getElem?_eq_none (le_refl _)] at h1
    simp at h1
  · by_contra hc
    have hlt : heap'.length < heap.length := by omega
    have h1 := hg heap'.length
    rw [List.getElem?_eq_getElem hlt, List.getElem?_eq_none (le_refl _)] at h1
    simp at h1

/-- Taking the node of an entry of the map out of the list and deleting its
key, as `Remove` and `checkExpired` do, keeps the state valid. -/
theorem Valid.unlinkDelete (s : LRUCache K V) (key : K) (val : Nat) (heap' : List (Node K V))
    (hv : Valid s) (h : unlink s.heap val = .ok heap') :
    Valid { s with heap := heap', items := mapDelete s.items key } := by
  have ⟨hl, hlen⟩ := unlink_links _ _ _ hv.links h
  refine ⟨mapDelete_nodup _ _ hv.nodup, ?_, ?_, ?_, hl⟩
  · intro e he; simp only [hlen]; exact hv.items e (mapDelete_mem _ _ e he).1
  · simp only [hlen]; exact hv.head
  · simp only [hlen]; exact hv.tail

/-- The same step keeps the structure `Inv`. -/
theorem Inv_unlinkDelete (s : LRUCache K V) (key : K) (val : Nat) (heap' : List (Node K V))
    (hi : Inv s) (hmem : (key, val) ∈ s.items) (h : unlink s.heap val = .ok heap') :
    Inv { s with heap := heap', items := mapDelete s.items key } := by
  obtain ⟨v, hv, hg⟩ := unlink_get _ _ _ h
  obtain ⟨vk, hvk, hvkey⟩ := hi.keys key val hmem
  rw [hv] at hvk
  cases hvk
  refine ⟨Valid.unlinkDelete s key val heap' hi.valid h, ?_, ?_, ?_, ?_⟩
  · intro k a hka
    obtain ⟨n, hn, hk⟩ := hi.keys k a (mapDelete_mem _ _ _ hka).1
    exact ⟨unlinked v a n, by simp [hg a, hn], hk⟩
  · intro k a n' y hka hn' hy
    have hka' := mapDelete_mem _ _ _ hka
    obtain ⟨n, hn, rfl⟩ := getElem?_map_some _ _ _ hg a n' hn'
    have hane : a ≠ val := by
      intro he
      subst he
      obtain ⟨n2, hn2, hk2⟩ := hi.keys k a hka'.1
      rw [hv] at hn2
      cases hn2
      exact hka'.2 (hk2.symm.trans hvkey)
    simp only [unlinked] at hy
    by_cases hp : v.prev = some a
    · rw [if_pos hp] at hy
      obtain ⟨m, hm, -⟩ := hi.back key val v y hmem hv hy
      refine ⟨unlinked v y m, by simp [hg y, hm], ?_⟩
      simp [unlinked, hy, hp]
    · rw [if_neg hp] at hy
      obtain ⟨m, hm, hmp⟩ := hi.back k a n y hka'.1 hn hy
      refine ⟨unlinked v y m, by simp [hg y, hm], ?_⟩
      by_cases hq : v.next = some y
      · obtain ⟨m2, hm2, hmp2⟩ := hi.back key val v y hmem hv hq
        rw [hm] at hm2
        cases hm2
        rw [hmp] at hmp2
        exact absurd (Option.some.inj hmp2) hane
      · simp [unlinked, hq, hmp]
  · intro h0 m' hh hm'
    obtain ⟨m, hm, rfl⟩ := getElem?_map_some _ _ _ hg h0 m' hm'
    have hmp := hi.headPrev h0 m hh hm
    by_cases hq : v.next = some h0
    · obtain ⟨m2, hm2, hmp2⟩ := hi.back key val v h0 hmem hv hq
      rw [hm] at hm2
      cases hm2
      rw [hmp] at hmp2
      cases hmp2
    · simp [unlinked, hq, hmp]
  · intro hne
    apply hi.headSet
    intro hnil
    apply hne
    show mapDelete s.items key = []
    rw [hnil]
    rfl

theorem Inv_Remove (s s' : LRUCache K V) (key : K) (hi : Inv s)
    (h : Remove s key = .ok s') : Inv s' := by
  unfold LRU.Remove at h
  split at h
  · rename_i val hval
    simp only [bind_ok_iff, pure_ok_iff] at h
    obtain ⟨heap, hheap, rfl⟩ := h
    exact Inv_unlinkDelete s key val heap hi (mapLookup_mem _ _ _ hval) hheap
  · simp only [pure_ok_iff] at h; subst h; exact hi

/-- A write that leaves the key and the links of every node alone keeps the
structure. -/
theorem Inv_ofShape (s : LRUCache K V) (heap' : List (Node K V)) (g : Nat → Node K V → Node K V)
    (hi : Inv s) (hg : ∀ i : Nat, heap'[i]? = (s.heap[i]?).map (g i))
    (hkey : ∀ i n, (g i n).key = n.key) (hprev : ∀ i n, (g i n).prev = n.prev)
    (hnext : ∀ i n, (g i n).next = n.next) : Inv { s with heap := heap' } := by
  have hlen : heap'.length = s.heap.length := length_of_getElem?_map _ _ g hg
  refine ⟨⟨hi.valid.nodup, ?_, ?_, ?_, ?_⟩, ?_, ?_, ?_, hi.headSet⟩
  · intro e he; simp only [hlen]; exact hi.valid.items e he
  · simp only [hlen]; exact hi.valid.head
  · simp only [hlen]; exact hi.valid.tail
  · intro a n' hn'
    obtain ⟨n, hn, rfl⟩ := getElem?_map_some _ _ _ hg a n' hn'
    rw [hlen, hprev, hnext]
    exact hi.valid.links a n hn
  · intro k a hka
    obtain ⟨n, hn, hk⟩ := hi.keys k a hka
    exact ⟨g a n, by simp [hg a, hn], (hkey a n).trans hk⟩
  · intro k a n' y hka hn' hy
    obtain ⟨n, hn, rfl⟩ := getElem?_map_some _ _ _ hg a n' hn'
    rw [hnext] at hy
    obtain ⟨m, hm, hmp⟩ := hi.back k a n y hka hn hy
    exact ⟨g y m, by simp [hg y, hm], (hprev y m).trans hmp⟩
  · intro h0 m' hh hm'
    obtain ⟨m, hm, rfl⟩ := getElem?_map_some _ _ _ hg h0 m' hm'
    rw [hprev]
    exact hi.headPrev h0 m hh hm

theorem evict_get (s s' : LRUCache K V) (h : evict s = .ok s') :
    ∃ t p, deref s.heap s.tail = .ok t ∧ s'.items = mapDelete s.items t.key ∧
      s'.head = s.head ∧ s'.cap = s.cap ∧ p < s.heap.length ∧
      ∀ i : Nat, s'.heap[i]? =
        (s.heap[i]?).map (fun n => if i = p then { n with next := none } else n) := by
  simp only [evict, bind_ok_iff, pure_ok_iff] at h
  obtain ⟨t, ht, heap, hheap, t', ht', rfl⟩ := h
  obtain ⟨p, -, hp, hg⟩ := modify_get _ _ _ _ hheap
  exact ⟨t, p, ht, rfl, rfl, rfl, hp, hg⟩

theorem Inv_evict (s s' : LRUCache K V) (hi : Inv s) (h : evict s = .ok s') : Inv s' := by
  have hvalid := Valid.evict s s' hi.valid h
  obtain ⟨t, p, -, hitems, hhead, -, -, hg⟩ := evict_get s s' h
  refine ⟨hvalid, ?_, ?_, ?_, ?_⟩
  · intro k a hka
    rw [hitems] at hka
    obtain ⟨n, hn, hk⟩ := hi.keys k a (mapDelete_mem _ _ _ hka).1
    refine ⟨_, by rw [hg a, hn]; rfl, ?_⟩
    by_cases hap : a = p <;> simp [hap, hk]
  · intro k a n' y hka hn' hy
    rw [hitems] at hka
    obtain ⟨n, hn, rfl⟩ := getElem?_map_some _ _ _ hg a n' hn'
    by_cases hap : a = p
    · simp [hap] at hy
    · simp only [hap, if_false] at hy
      obtain ⟨m, hm, hmp⟩ := hi.back k a n y (mapDelete_mem _ _ _ hka).1 hn hy
      refine ⟨_, by rw [hg y, hm]; rfl, ?_⟩
      by_cases hyp : y = p <;> simp [hyp, hmp]
  · intro h0 m' hh hm'
    rw [hhead] at hh
    obtain ⟨m, hm, rfl⟩ := getElem?_map_some _ _ _ hg h0 m' hm'
    have := hi.headPrev h0 m hh hm
    by_cases hyp : h0 = p <;> simp [hyp, this]
  · intro hne
    rw [hhead]
    apply hi.headSet
    intro hnil
    apply hne
    rw [hitems, hnil]
    rfl

theorem relink_get (s s' : LRUCache K V) (val : Nat) (h : relink s val = .ok s') :
    ∃ v h0, s.heap[val]? = some v ∧ s.head = some h0 ∧ s'.items = s.items ∧
      s'.head = some val ∧ s'.tail = s.tail ∧ s'.cap = s.cap ∧
      ∀ i : Nat, s'.heap[i]? = (s.heap[i]?).map (relinked v h0 val i) := by
  simp only [relink, bind_ok_iff, pure_ok_iff] at h
  obtain ⟨heap2, h2, heap3, h3, heap4, h4, heap5, h5, rfl⟩ := h
  obtain ⟨v, hv, hg2⟩ := unlink_get _ _ _ h2
  obtain ⟨a3, ha3, -, hg3⟩ := modify_get _ _ _ _ h3
  obtain ⟨a4, ha4, -, hg4⟩ := modify_get _ _ _ _ h4
  obtain ⟨a5, ha5, -, hg5⟩ := modify_get _ _ _ _ h5
  cases ha3
  cases ha4
  refine ⟨v, a5, hv, ha5, rfl, rfl, rfl, rfl, ?_⟩
  intro i
  show heap5[i]? = _
  rw [hg5 i, hg4 i, hg3 i, hg2 i]
  cases hn : s.heap[i]? with
  | none => rfl
  | some n =>
    simp only [Option.map_some', Option.some.injEq, ha5]
    by_cases h1 : i = a5
    · subst h1
      by_cases h2 : i = val
      · subst h2; simp [relinked, unlinked]
      · simp [relinked, unlinked, h2]
    · by_cases h2 : i = val
      · subst h2; simp [relinked, unlinked, h1]
      · simp [relinked, unlinked, h1, h2]

theorem Inv_relink (s s' : LRUCache K V) (key : K) (val : Nat) (hi : Inv s)
    (hmem : (key, val) ∈ s.items) (hne : s.head ≠ some val) (h : relink s val = .ok s') :
    Inv s' := by
  have hvalid := Valid.relink s s' val hi.valid (hi.valid.items _ hmem) h
  obtain ⟨v, h0, hv, hh0, hitems, hhead, -, -, hg⟩ := relink_get s s' val h
  have h0ne : h0 ≠ val := fun he => hne (by rw [hh0, he])
  refine ⟨hvalid, ?_, ?_, ?_, ?_⟩
  · intro k a hka
    rw [hitems] at hka
    obtain ⟨n, hn, hk⟩ := hi.keys k a hka
    exact ⟨relinked v h0 val a n, by simp [hg a, hn], hk⟩
  · intro k a n' y hka hn' hy
    rw [hitems] at hka
    obtain ⟨n, hn, rfl⟩ := getElem?_map_some _ _ _ hg a n' hn'
    by_cases hav : a = val
    · subst hav
      simp only [relinked, if_true, Option.some.injEq] at hy
      subst hy
      have hlt : h0 < s.heap.length := hi.valid.head h0 hh0
      refine ⟨relinked v h0 a h0 (s.heap[h0]), by simp [hg h0, List.getElem?_eq_getElem hlt], ?_⟩
      simp [relinked]
    · simp only [relinked, hav, if_false, unlinked] at hy
      -- the node after `a` once `val` is unlinked points back at `a`
      have key1 : ∃ m, s.heap[y]? = some m ∧ (unlinked v y m).prev = some a ∧
          (m.prev = some a ∨ (m.prev = some val ∧ v.prev = some a ∧ v.next = some y)) := by
        by_cases hp : v.prev = some a
        · rw [if_pos hp] at hy
          obtain ⟨m, hm, hmp⟩ := hi.back key val v y hmem hv hy
          exact ⟨m, hm, by simp [unlinked, hy, hp], Or.inr ⟨hmp, hp, hy⟩⟩
        · rw [if_neg hp] at hy
          obtain ⟨m, hm, hmp⟩ := hi.back k a n y hka hn hy
          refine ⟨m, hm, ?_, Or.inl hmp⟩
          by_cases hq : v.next = some y
          · obtain ⟨m2, hm2, hmp2⟩ := hi.back key val v y hmem hv hq
            rw [hm] at hm2
            cases hm2
            rw [hmp] at hmp2
            exact absurd (Option.some.inj hmp2) hav
          · simp [unlinked, hq, hmp]
      obtain ⟨m, hm, hup, hcase⟩ := key1
      have hyh : y ≠ h0 := by
        intro he
        subst he
        have := hi.headPrev y m hh0 hm
        rcases hcase with hc | ⟨hc, -, -⟩ <;> rw [this] at hc <;> cases hc
      have hyv : y ≠ val := by
        intro he
        subst he
        rw [hv] at hm
        cases hm
        rcases hcase with hc | ⟨hc, hp, -⟩
        · -- the node before `val` is `a`, so `a` got the `next` of `val`
          have hp : v.prev = some a := hc
          rw [if_pos hp] at hy
          obtain ⟨m2, hm2, hmp2⟩ := hi.back key y v y hmem hv hy
          rw [hv] at hm2
          cases hm2
          rw [hp] at hmp2
          exact hav (Option.some.inj hmp2)
        · rw [hp] at hc
          exact hav (Option.some.inj hc)
      refine ⟨relinked v h0 val y m, by simp [hg y, hm], ?_⟩
      simp only [relinked, hyh, hyv, if_false]
      exact hup
  · intro h1 m' hh hm'
    rw [hhead] at hh
    cases hh
    obtain ⟨m, hm, rfl⟩ := getElem?_map_some _ _ _ hg val m' hm'
    have : ¬ val = h0 := fun he => h0ne he.symm
    simp [relinked, this]
  · intro _
    rw [hhead]
    simp

theorem Inv_NewCache (cap : Int) : Inv (NewCache cap : LRUCache K V) := by
  refine ⟨Valid.NewCache cap, ?_, ?_, ?_, ?_⟩
  · intro k a h; simp [LRU.NewCache] at h
  · intro k a n y h; simp [LRU.NewCache] at h
  · intro h m hh; simp [LRU.NewCache] at hh
  · intro h; exact absurd rfl h

/-- Allocating a node changes nothing for the nodes already there. -/
theorem Inv_append (s : LRUCache K V) (x : Node K V) (hi : Inv s)
    (hp : x.prev = none) (hn : x.next = none) : Inv { s with heap := s.heap ++ [x] } := by
  have old : ∀ (a : Nat) (n : Node K V), a < s.heap.length →
      (s.heap ++ [x])[a]? = some n → s.heap[a]? = some n := by
    intro a n ha h
    rwa [List.getElem?_append_left ha] at h
  have new : ∀ (a : Nat) (n : Node K V), s.heap[a]? = some n → (s.heap ++ [x])[a]? = some n := by
    intro a n h
    rwa [List.getElem?_append_left (List.getElem?_eq_some.1 h).1]
  refine ⟨⟨hi.valid.nodup, ?_, ?_, ?_, append_links _ _ hi.valid.links hp hn⟩, ?_, ?_, ?_,
    hi.headSet⟩
  · intro e he
    have := hi.valid.items e he
    simp only [List.length_append, List.length_singleton]; omega
  · exact InB_mono _ _ _ (by simp) hi.valid.head
  · exact InB_mono _ _ _ (by simp) hi.valid.tail
  · intro k a hka
    obtain ⟨n, hn', hk⟩ := hi.keys k a hka
    exact ⟨n, new a n hn', hk⟩
  · intro k a n y hka hn' hy
    have hn0 := old a n (hi.valid.items _ hka) hn'
    obtain ⟨m, hm, hmp⟩ := hi.back k a n y hka hn0 hy
    exact ⟨m, new y m hm, hmp⟩
  · intro h m hh hm
    exact hi.headPrev h m hh (old h m (hi.valid.head h hh) hm)

/-- The last three assignments of the insert branch of `add` (lines 98-100,
102): the fresh node at `node` becomes `head`. -/
theorem Inv_linkFresh (s : LRUCache K V) (key : K) (node : Nat) (heap3 heap4 : List (Node K V))
    (hi : Inv s) (hfresh : ∃ x, s.heap[node]? = some x ∧ x.key = key ∧ x.prev = none)
    (hitems : ∀ e ∈ s.items, e.2 ≠ node) (hhead : s.head ≠ some node)
    (h3 : setNext s.heap (some node) s.head = .ok heap3)
    (h4 : setPrev heap3 s.head (some node) = .ok heap4) :
    Inv { s with heap := heap4, head := some node, items := mapStore s.items key node } := by
  obtain ⟨a3, ha3, hlt3, hg3⟩ := modify_get _ _ _ _ h3
  obtain ⟨h0, hh0, -, hg4⟩ := modify_get _ _ _ _ h4
  cases ha3
  have hne : h0 ≠ node := fun he => hhead (by rw [hh0, he])
  have hne' : ¬ node = h0 := fun he => hne he.symm
  have hg : ∀ i : Nat, heap4[i]? = (s.heap[i]?).map (fun n =>
      { n with next := if i = node then some h0 else n.next,
               prev := if i = h0 then some node else n.prev }) := by
    intro i
    rw [hg4 i, hg3 i]
    cases hn : s.heap[i]? with
    | none => rfl
    | some n =>
      simp only [Option.map_some', Option.some.injEq, hh0]
      by_cases h1 : i = h0
      · subst h1
        simp [hne]
      · by_cases h2 : i = node
        · subst h2; simp [h1]
        · simp [h1, h2]
  have hlen : heap4.length = s.heap.length := length_of_getElem?_map _ _ _ hg
  have get4 : ∀ (i : Nat) (n : Node K V), s.heap[i]? = some n → heap4[i]? = some
      { n with next := if i = node then some h0 else n.next,
               prev := if i = h0 then some node else n.prev } := by
    intro i n hn
    rw [hg i, hn]
    rfl
  obtain ⟨x, hx, hxk, hxp⟩ := hfresh
  have hmemStore : ∀ k a, (k, a) ∈ mapStore s.items key node →
      (k = key ∧ a = node) ∨ ((k, a) ∈ s.items ∧ a ≠ node) := by
    intro k a hka
    simp only [mapStore, List.mem_cons, Prod.mk.injEq] at hka
    rcases hka with hka | hka
    · exact Or.inl hka
    · have := (mapDelete_mem _ _ _ hka).1
      exact Or.inr ⟨this, hitems _ this⟩
  refine ⟨⟨mapStore_nodup _ _ _ hi.valid.nodup, ?_, ?_, ?_, ?_⟩, ?_, ?_, ?_, ?_⟩
  · intro e he
    simp only [hlen]
    rcases hmemStore e.1 e.2 he with ⟨-, h2⟩ | ⟨h2, -⟩
    · rw [h2]; exact hlt3
    · exact hi.valid.items _ h2
  · simp only [hlen]; exact InB_some _ _ hlt3
  · simp only [hlen]; exact hi.valid.tail
  · intro a n' hn'
    obtain ⟨n, hn, rfl⟩ := getElem?_map_some _ _ _ hg a n' hn'
    rw [hlen]
    have hl := hi.valid.links a n hn
    constructor
    · simp only
      split
      · exact InB_some _ _ hlt3
      · exact hl.1
    · simp only
      split
      · exact InB_some _ _ (hi.valid.head h0 hh0)
      · exact hl.2
  · intro k a hka
    rcases hmemStore k a hka with ⟨h1, h2⟩ | ⟨h2, -⟩
    · subst h1; subst h2
      refine ⟨_, get4 a x hx, ?_⟩
      exact hxk
    · obtain ⟨n, hn, hk⟩ := hi.keys k a h2
      refine ⟨_, get4 a n hn, ?_⟩
      exact hk
  · intro k a n' y hka hn' hy
    obtain ⟨n, hn, rfl⟩ := getElem?_map_some _ _ _ hg a n' hn'
    rcases hmemStore k a hka with ⟨-, h2⟩ | ⟨h2, h3'⟩
    · subst h2
      simp only [if_true, Option.some.injEq] at hy
      subst hy
      have hlt : h0 < s.heap.length := hi.valid.head h0 hh0
      refine ⟨_, get4 h0 _ (List.getElem?_eq_getElem hlt), ?_⟩
      simp
    · simp only [h3', if_false] at hy
      obtain ⟨m, hm, hmp⟩ := hi.back k a n y h2 hn hy
      have hyh : y ≠ h0 := by
        intro he
        subst he
        have := hi.headPrev y m hh0 hm
        rw [this] at hmp
        cases hmp
      refine ⟨_, get4 y m hm, ?_⟩
      simp [hyh, hmp]
  · intro h1 m' hh hm'
    have h1eq : h1 = node := (Option.some.inj hh).symm
    subst h1eq
    obtain ⟨m, hm, rfl⟩ := getElem?_map_some _ _ _ hg h1 m' hm'
    rw [hx] at hm
    cases hm
    simp [hne', hxp]
  · intro _
    simp

theorem Inv_add (s s' : LRUCache K V) (key : K) (value : V) (ttl now : Int) (hi : Inv s)
    (h : add s key value ttl now = .ok s') : Inv s' := by
  have hvalid := Valid.add s s' key value ttl now hi.valid h
  unfold LRU.add at h
  split at h
  · -- the key is absent
    simp only [bind_ok_iff, pure_ok_iff] at h
    obtain ⟨s1, h1, rfl⟩ := h
    have hi0 : Inv { s with heap := s.heap ++ [freshNode key value ttl now] } :=
      Inv_append s _ hi rfl rfl
    have hN : (s.heap ++ [freshNode key value ttl now])[s.heap.length]?
        = some (freshNode key value ttl now) := List.getElem?_concat_length _ _
    split at h1
    · rename_i hempty
      simp only [pure_ok_iff] at h1
      subst h1
      have hnil : s.items = [] := List.length_eq_zero.1 hempty
      have hstore : mapStore s.items key s.heap.length = [(key, s.heap.length)] := by
        rw [hnil]; rfl
      refine ⟨hvalid, ?_, ?_, ?_, ?_⟩
      · intro k a hka
        have hka' : (k, a) ∈ mapStore s.items key s.heap.length := hka
        rw [hstore] at hka'
        simp only [List.mem_singleton, Prod.mk.injEq] at hka'
        obtain ⟨rfl, rfl⟩ := hka'
        exact ⟨_, hN, rfl⟩
      · intro k a n y hka hn hy
        have hka' : (k, a) ∈ mapStore s.items key s.heap.length := hka
        rw [hstore] at hka'
        simp only [List.mem_singleton, Prod.mk.injEq] at hka'
        obtain ⟨rfl, rfl⟩ := hka'
        have hn' : (s.heap ++ [freshNode k value ttl now])[s.heap.length]? = some n := hn
        rw [hN] at hn'
        cases hn'
        cases hy
      · intro h0 m hh hm
        have hh' : some s.heap.length = some h0 := hh
        cases hh'
        have hm' : (s.heap ++ [freshNode key value ttl now])[s.heap.length]? = some m := hm
        rw [hN] at hm'
        cases hm'
        rfl
      · intro _ hc
        cases hc
    · simp only [bind_ok_iff, pure_ok_iff] at h1
      obtain ⟨s2, h2, heap3, h3, heap4, h4, rfl⟩ := h1
      have hs2 : Inv s2 ∧ (∃ x, s2.heap[s.heap.length]? = some x ∧ x.key = key ∧ x.prev = none) ∧
          (∀ e ∈ s2.items, e.2 ≠ s.heap.length) ∧ s2.head ≠ some s.heap.length := by
        have hhd : s.head ≠ some s.heap.length := by
          intro hc
          exact Nat.lt_irrefl _ (hi.valid.head _ hc)
        split at h2
        · obtain ⟨t, p, -, hitems, hhead, -, -, hg⟩ := evict_get _ _ h2
          refine ⟨Inv_evict _ _ hi0 h2, ?_, ?_, ?_⟩
          · refine ⟨_, by rw [hg s.heap.length]; exact congrArg _ hN, ?_, ?_⟩
            · by_cases hc : s.heap.length = p <;> simp [hc, freshNode]
            · by_cases hc : s.heap.length = p <;> simp [hc, freshNode]
          · intro e he
            rw [hitems] at he
            have := hi.valid.items e (mapDelete_mem _ _ e he).1
            omega
          · rw [hhead]; exact hhd
        · simp only [pure_ok_iff] at h2
          subst h2
          refine ⟨hi0, ⟨_, hN, rfl, rfl⟩, ?_, hhd⟩
          intro e he
          have := hi.valid.items e he
          omega
      obtain ⟨hi2, hfresh, hit2, hhd2⟩ := hs2
      exact Inv_linkFresh s2 key s.heap.length heap3 heap4 hi2 hfresh hit2 hhd2 h3 h4
  · -- the key is present
    rename_i val hval
    have hmem := mapLookup_mem _ _ _ hval
    simp only [bind_ok_iff] at h
    obtain ⟨heap1, h1, heap2, h2, h3⟩ := h
    have hi1 : Inv { s with heap := heap1 } := by
      split at h1
      · obtain ⟨a, -, -, hg⟩ := modify_get _ _ _ _ h1
        refine Inv_ofShape s heap1 _ hi hg ?_ ?_ ?_ <;> intro i n <;> split <;> rfl
      · simp only [pure_ok_iff] at h1; subst h1; exact hi
    have hi2 : Inv { s with heap := heap2 } := by
      obtain ⟨a, -, -, hg⟩ := modify_get _ _ _ _ h2
      refine Inv_ofShape { s with heap := heap1 } heap2 _ hi1 hg ?_ ?_ ?_ <;>
        intro i n <;> split <;> rfl
    split at h3
    · rename_i hne
      exact Inv_relink _ _ key val hi2 hmem hne h3
    · simp only [pure_ok_iff] at h3; subst h3; exact hi2

theorem Inv_Clear (fuel : Nat) (s s' : LRUCache K V) (hi : Inv s)
    (h : Clear fuel s = .ok s') : Inv s' := by
  have hvalid := Valid.Clear fuel s s' hi.valid h
  obtain ⟨hitems, hhead, -, -⟩ := Clear_ok_fresh fuel s s' h
  refine ⟨hvalid, ?_, ?_, ?_, ?_⟩
  · intro k a hka; rw [hitems] at hka; cases hka
  · intro k a n y hka; rw [hitems] at hka; cases hka
  · intro h0 m hh; rw [hhead] at hh; cases hh
  · intro hne; exact absurd hitems hne

theorem Inv_step (fuel : Nat) (s s' : LRUCache K V) (op : Op K V) (hi : Inv s)
    (h : step fuel s op = .ok s') : Inv s' := by
  cases op with
  | Add key value => exact Inv_add _ _ _ _ _ _ hi h
  | AddWithTTL key value ttl now => exact Inv_add _ _ _ _ _ _ hi h
  | Get key =>
    simp only [LRU.step, bind_ok_iff, pure_ok_iff] at h
    obtain ⟨_, -, rfl⟩ := h
    exact hi
  | Remove key => exact Inv_Remove _ _ _ hi h
  | Clear => exact Inv_Clear _ _ _ hi h

theorem Inv_run (fuel : Nat) (s s' : LRUCache K V) (ops : List (Op K V)) (hi : Inv s)
    (h : run fuel s ops = .ok s') : Inv s' := by
  induction ops generalizing s with
  | nil => simp only [LRU.run, pure_ok_iff] at h; subst h; exact hi
  | cons op ops ih =>
    simp only [LRU.run, bind_ok_iff] at h
    obtain ⟨s1, h1, h2⟩ := h
    exact ih _ (Inv_step _ _ _ _ hi h1) h2

theorem mapDelete_mem_of (m : List (K × Nat)) (key : K) (e : K × Nat)
    (he : e ∈ m) (hne : e.1 ≠ key) : e ∈ mapDelete m key := by
  simp only [mapDelete, List.mem_filter]
  exact ⟨he, by simpa using hne⟩

theorem Inv_sweepOver (now : Int) (entries : List (K × Nat)) (s s' : LRUCache K V)
    (hi : Inv s) (hsub : ∀ e ∈ entries, e ∈ s.items) (hnd : (entries.map Prod.fst).Nodup)
    (h : sweepOver now entries s = .ok s') : Inv s' := by
  induction entries generalizing s with
  | nil => simp only [LRU.sweepOver, pure_ok_iff] at h; subst h; exact hi
  | cons e es ih =>
    obtain ⟨key, val⟩ := e
    simp only [List.map_cons, List.nodup_cons] at hnd
    simp only [LRU.sweepOver, bind_ok_iff] at h
    obtain ⟨v, -, h2⟩ := h
    split at h2
    · simp only [bind_ok_iff] at h2
      obtain ⟨heap, hheap, hrec⟩ := h2
      have hmem : (key, val) ∈ s.items := hsub _ (List.mem_cons_self _ _)
      refine ih _ (Inv_unlinkDelete s key val heap hi hmem hheap) ?_ hnd.2 hrec
      intro e he
      refine mapDelete_mem_of _ _ _ (hsub e (List.mem_cons_of_mem _ he)) ?_
      intro hc
      exact hnd.1 (hc ▸ List.mem_map_of_mem Prod.fst he)
    · exact ih s hi (fun e he => hsub e (List.mem_cons_of_mem _ he)) hnd.2 h2

theorem Reached_inv (cap : Int) (s : LRUCache K V) (h : Reached cap s) : Inv s := by
  induction h with
  | init => exact Inv_NewCache cap
  | call fuel s s' op _ hstep ih => exact Inv_step fuel s s' op ih hstep
  | sweep now s s' order _ hperm hsw ih =>
    refine Inv_sweepOver now order s s' ih (fun e he => hperm.subset he) ?_ hsw
    exact (hperm.map Prod.fst).nodup_iff.2 ih.valid.nodup

theorem Reached_run (cap : Int) (fuel : Nat) (s s' : LRUCache K V) (ops : List (Op K V))
    (hr : Reached cap s) (h : run fuel s ops = .ok s') : Reached cap s' := by
  induction ops generalizing s with
  | nil => simp only [LRU.run, pure_ok_iff] at h; subst h; exact hr
  | cons op ops ih =>
    simp only [LRU.run, bind_ok_iff] at h
    obtain ⟨s1, h1, h2⟩ := h
    exact ih _ (Reached.call fuel s s1 op hr h1) h2

theorem Reachable_reached (cap : Int) (s : LRUCache K V) (h : Reachable cap s) :
    Reached cap s := by
  obtain ⟨fuel, ops, h⟩ := h
  exact Reached_run cap fuel _ _ ops Reached.init h

theorem Reachable_inv (cap : Int) (s : LRUCache K V) (h : Reachable cap s) : Inv s :=
  Reached_inv cap s (Reachable_reached cap s h)

/-! ### What a write leaves alone -/

theorem modify_proj {β : Type} (g : Node K V → β) (heap heap' : List (Node K V))
    (p : Option Nat) (f : Node K V → Node K V) (h : modify heap p f = .ok heap')
    (hf : ∀ n, g (f n) = g n) (i : Nat) : (heap'[i]?).map g = (heap[i]?).map g := by
  obtain ⟨a, -, -, hg⟩ := modify_get _ _ _ _ h
  rw [hg i]
  cases heap[i]? with
  | none => rfl
  | some n =>
    simp only [Option.map_some', Option.some.injEq]
    split
    · exact hf n
    · rfl

theorem unlink_proj {β : Type} (g : Node K V → β) (heap heap' : List (Node K V)) (val : Nat)
    (h : unlink heap val = .ok heap')
    (hg : ∀ (n : Node K V) (x y : Option Nat), g { n with next := x, prev := y } = g n)
    (i : Nat) : (heap'[i]?).map g = (heap[i]?).map g := by
  obtain ⟨v, -, hu⟩ := unlink_get _ _ _ h
  rw [hu i]
  cases heap[i]? with
  | none => rfl
  | some n =>
    simp only [Option.map_some', Option.some.injEq, unlinked]
    exact hg n _ _

theorem evict_proj {β : Type} (g : Node K V → β) (s s' : LRUCache K V)
    (h : evict s = .ok s')
    (hg : ∀ (n : Node K V) (x y : Option Nat), g { n with next := x, prev := y } = g n)
    (i : Nat) : (s'.heap[i]?).map g = (s.heap[i]?).map g := by
  obtain ⟨t, p, -, -, -, -, -, he⟩ := evict_get _ _ h
  rw [he i]
  cases s.heap[i]? with
  | none => rfl
  | some n =>
    simp only [Option.map_some', Option.some.injEq]
    split
    · exact hg n none n.prev
    · rfl

theorem relink_proj {β : Type} (g : Node K V → β) (s s' : LRUCache K V) (val : Nat)
    (h : relink s val = .ok s')
    (hg : ∀ (n : Node K V) (x y : Option Nat), g { n with next := x, prev := y } = g n)
    (i : Nat) : (s'.heap[i]?).map g = (s.heap[i]?).map g := by
  obtain ⟨v, h0, -, -, -, -, -, -, hr⟩ := relink_get _ _ _ h
  rw [hr i]
  cases s.heap[i]? with
  | none => rfl
  | some n =>
    simp only [Option.map_some', Option.some.injEq, relinked]
    exact hg n _ _

theorem getElem?_of_map_eq {β : Type} (g : Node K V → β) (heap : List (Node K V)) (i : Nat)
    (b : β) (h : (heap[i]?).map g = some b) : ∃ n, heap[i]? = some n ∧ g n = b := by
  cases hn : heap[i]? with
  | none => rw [hn] at h; simp at h
  | some n =>
    rw [hn] at h
    simp only [Option.map_some', Option.some.injEq] at h
    exact ⟨n, rfl, h⟩

/-- The entry a completed `add` leaves for its key: it is at `head`, holds the
value written, and its expiry instant is `now + ttl` for a non-zero ttl, and
otherwise zero for a new key and what it was for a key already present. -/
theorem add_entry (s s' : LRUCache K V) (key : K) (value : V) (ttl now : Int)
    (h : add s key value ttl now = .ok s') :
    ∃ a n, s'.head = some a ∧ mapLookup s'.items key = some a ∧ s'.heap[a]? = some n ∧
      n.value = value ∧ (ttl ≠ 0 → n.exp = now + ttl) ∧
      (ttl = 0 → mapLookup s.items key = none → n.exp = 0) ∧
      (∀ a0, mapLookup s.items key = some a0 → a0 = a ∧ s'.items = s.items ∧
        ∀ n0, s.heap[a0]? = some n0 → ttl = 0 → n.exp = n0.exp) := by
  have hg : ∀ (n : Node K V) (x y : Option Nat),
      (fun m : Node K V => (m.value, m.exp)) { n with next := x, prev := y }
        = (fun m : Node K V => (m.value, m.exp)) n := fun _ _ _ => rfl
  unfold add at h
  split at h
  · rename_i hnone
    simp only [bind_ok_iff, pure_ok_iff] at h
    obtain ⟨s1, h1, rfl⟩ := h
    have hN : ((s.heap ++ [freshNode key value ttl now])[s.heap.length]?).map
        (fun m : Node K V => (m.value, m.exp)) = some (value, if ttl ≠ 0 then now + ttl else 0) := by
      rw [List.getElem?_concat_length]; rfl
    have hs1 : s1.head = some s.heap.length ∧ (s1.heap[s.heap.length]?).map
        (fun m : Node K V => (m.value, m.exp)) = some (value, if ttl ≠ 0 then now + ttl else 0) := by
      split at h1
      · simp only [pure_ok_iff] at h1; subst h1; exact ⟨rfl, hN⟩
      · simp only [bind_ok_iff, pure_ok_iff] at h1
        obtain ⟨s2, h2, heap3, h3, heap4, h4, rfl⟩ := h1
        refine ⟨rfl, ?_⟩
        have e2 : (s2.heap[s.heap.length]?).map (fun m : Node K V => (m.value, m.exp))
            = some (value, if ttl ≠ 0 then now + ttl else 0) := by
          split at h2
          · exact (evict_proj _ _ _ h2 hg _).trans hN
          · simp only [pure_ok_iff] at h2; subst h2; exact hN
        exact (modify_proj (fun m : Node K V => (m.value, m.exp)) _ _ _ _ h4 (fun _ => rfl) _).trans
          ((modify_proj (fun m : Node K V => (m.value, m.exp)) _ _ _ _ h3 (fun _ => rfl) _).trans e2)
    obtain ⟨hhead, hdata⟩ := hs1
    obtain ⟨n, hn, hgn⟩ := getElem?_of_map_eq _ _ _ _ hdata
    simp only [Prod.mk.injEq] at hgn
    refine ⟨s.heap.length, n, hhead, mapLookup_store_self _ _ _, hn, hgn.1, ?_, ?_, ?_⟩
    · intro hne; rw [hgn.2, if_pos hne]
    · intro h0 _; rw [hgn.2, h0]; rfl
    · intro a0 ha0; rw [hnone] at ha0; cases ha0
  · rename_i val hval
    simp only [bind_ok_iff] at h
    obtain ⟨heap1, h1, heap2, h2, h3⟩ := h
    have e1 : (ttl ≠ 0 → (heap1[val]?).map (fun m : Node K V => m.exp) = some (now + ttl)) ∧
        (ttl = 0 → heap1 = s.heap) := by
      split at h1
      · rename_i hne
        refine ⟨fun _ => ?_, fun h0 => absurd h0 hne⟩
        obtain ⟨a, ha, hlt, hg1⟩ := modify_get _ _ _ _ h1
        cases ha
        rw [hg1 val, List.getElem?_eq_getElem hlt]
        simp
      · rename_i hne
        simp only [pure_ok_iff] at h1
        exact ⟨fun h0 => absurd h0 hne, fun _ => h1.symm⟩
    obtain ⟨a2, ha2, hlt2, hg2⟩ := modify_get _ _ _ _ h2
    cases ha2
    have e2v : (heap2[val]?).map (fun m : Node K V => (m.value, m.exp))
        = some (value, (heap1[val]).exp) := by
      rw [hg2 val, List.getElem?_eq_getElem hlt2]
      simp
    have hfin : s'.head = some val ∧ s'.items = s.items ∧
        (s'.heap[val]?).map (fun m : Node K V => (m.value, m.exp))
          = some (value, (heap1[val]).exp) := by
      split at h3
      · obtain ⟨v, h0, -, -, hitems, hhead, -, -, -⟩ := relink_get _ _ _ h3
        exact ⟨hhead, hitems, (relink_proj _ _ _ _ h3 hg _).trans e2v⟩
      · rename_i heq
        simp only [pure_ok_iff] at h3
        subst h3
        exact ⟨by simpa using heq, rfl, e2v⟩
    obtain ⟨hhead, hitems, hdata⟩ := hfin
    obtain ⟨n, hn, hgn⟩ := getElem?_of_map_eq _ _ _ _ hdata
    simp only [Prod.mk.injEq] at hgn
    refine ⟨val, n, hhead, by rw [hitems]; exact hval, hn, hgn.1, ?_, ?_, ?_⟩
    · intro hne
      have := e1.1 hne
      rw [List.getElem?_eq_getElem hlt2] at this
      simp only [Option.map_some', Option.some.injEq] at this
      rw [hgn.2, this]
    · intro _ hc; rw [hval] at hc; cases hc
    · intro a0 ha0
      rw [hval] at ha0
      cases ha0
      refine ⟨rfl, hitems, ?_⟩
      intro n0 hn0 h0
      have hh := e1.2 h0
      subst hh
      rw [hgn.2]
      have := List.getElem?_eq_getElem hlt2
      rw [hn0] at this
      exact (Option.some.inj this).symm ▸ rfl

/-! ### Calls that cannot fault -/

theorem relink_total (s : LRUCache K V) (val h0 : Nat) (hl : LinksOK s.heap)
    (hval : val < s.heap.length) (hh : s.head = some h0) (hh0 : h0 < s.heap.length) :
    ∃ s', relink s val = .ok s' := by
  obtain ⟨heap2, e2⟩ := unlink_total s.heap val hl hval
  have l2 := (unlink_links _ _ _ hl e2).2
  have e3 := modify_of_lt heap2 val (fun n => { n with next := s.head }) (by rw [l2]; exact hval)
  have l3 := (modify_length _ _ _ _ e3).trans l2
  have e4 := modify_of_lt (heap2.set val { heap2[val] with next := s.head }) val
    (fun n => { n with prev := none }) (by rw [l3]; exact hval)
  have l4 := (modify_length _ _ _ _ e4).trans l3
  have e5 := modify_of_lt _ h0 (fun n : Node K V => { n with prev := some val })
    (by rw [l4]; exact hh0)
  rw [← hh] at e5
  exact ⟨_, by simp only [relink, bind, Except.bind, e2, setNext, setPrev, e3, e4, e5]; rfl⟩

theorem add_present_total (s : LRUCache K V) (key : K) (value : V) (ttl now : Int) (val : Nat)
    (hi : Inv s) (hval : mapLookup s.items key = some val) :
    ∃ s', add s key value ttl now = .ok s' := by
  have hmem := mapLookup_mem _ _ _ hval
  have hlt : val < s.heap.length := hi.valid.items _ hmem
  obtain ⟨h0, hh0⟩ : ∃ h0, s.head = some h0 :=
    Option.ne_none_iff_exists'.1 (hi.headSet (List.ne_nil_of_mem hmem))
  obtain ⟨heap1, e1, l1, k1⟩ : ∃ heap1,
      (if ttl ≠ 0 then setExp s.heap (some val) (now + ttl) else pure s.heap) = Except.ok heap1 ∧
      heap1.length = s.heap.length ∧ LinksOK heap1 := by
    by_cases h0 : ttl ≠ 0
    · have e := modify_of_lt s.heap val (fun n => { n with exp := now + ttl }) hlt
      exact ⟨_, by rw [if_pos h0]; exact e, modify_length _ _ _ _ e,
        (setExp_links _ _ _ _ hi.valid.links e).1⟩
    · exact ⟨s.heap, by rw [if_neg h0]; rfl, rfl, hi.valid.links⟩
  have e2 := modify_of_lt heap1 val (fun n => { n with value := value }) (by rw [l1]; exact hlt)
  have l2 := (modify_length _ _ _ _ e2).trans l1
  have k2 := (setValue_links _ _ _ _ k1 e2).1
  by_cases hhd : s.head ≠ some val
  · obtain ⟨s', hs'⟩ := relink_total
      { s with heap := heap1.set val { heap1[val] with value := value } } val h0 k2
      (by rw [l2]; exact hlt) hh0 (by rw [l2]; exact hi.valid.head h0 hh0)
    refine ⟨s', ?_⟩
    simp only [add, hval, bind, Except.bind, e1, setValue, e2]
    rw [if_pos hhd]
    exact hs'
  · refine ⟨{ s with heap := heap1.set val { heap1[val] with value := value } }, ?_⟩
    simp only [add, hval, bind, Except.bind, e1, setValue, e2]
    rw [if_neg hhd]
    rfl

theorem add_absent_total (s : LRUCache K V) (key : K) (value : V) (ttl now : Int)
    (hi : Inv s) (hnone : mapLookup s.items key = none)
    (hroom : s.items.length = 0 ∨ (s.items.length : Int) ≠ s.cap) :
    ∃ s', add s key value ttl now = .ok s' ∧
      s'.items = mapStore s.items key s.heap.length ∧ s'.cap = s.cap := by
  by_cases hempty : s.items.length = 0
  · refine ⟨{ s with heap := s.heap ++ [freshNode key value ttl now],
                     head := some s.heap.length, tail := some s.heap.length,
                     items := mapStore s.items key s.heap.length }, ?_, rfl, rfl⟩
    simp only [add, hnone, hempty, if_true, bind, Except.bind, pure, Except.pure]
  · have hfull : ¬ (s.items.length : Int) = s.cap := by
      rcases hroom with h | h
      · exact absurd h hempty
      · exact h
    obtain ⟨h0, hh0⟩ : ∃ h0, s.head = some h0 :=
      Option.ne_none_iff_exists'.1 (hi.headSet (fun hc => hempty (by rw [hc]; rfl)))
    have hlt0 : h0 < s.heap.length := hi.valid.head h0 hh0
    have e3 := modify_of_lt (s.heap ++ [freshNode key value ttl now]) s.heap.length
      (fun n => { n with next := s.head }) (by simp)
    have l3 := modify_length _ _ _ _ e3
    obtain ⟨heap4, e4⟩ : ∃ heap4, modify
        ((s.heap ++ [freshNode key value ttl now]).set s.heap.length
          { (s.heap ++ [freshNode key value ttl now])[s.heap.length] with next := s.head })
        s.head (fun n => { n with prev := some s.heap.length }) = .ok heap4 := by
      rw [hh0]
      exact ⟨_, modify_of_lt _ h0 _ (by
        simp only [List.length_set, List.length_append, List.length_singleton]; omega)⟩
    refine ⟨{ s with heap := heap4, head := some s.heap.length,
                     items := mapStore s.items key s.heap.length }, ?_, rfl, rfl⟩
    simp only [add, hnone, hempty, hfull, if_false, bind, Except.bind, pure, Except.pure,
      setNext, setPrev, e3, e4]

/-! ### A round of `checkExpired` -/

theorem mapLookup_of_mem (m : List (K × Nat)) (key : K) (a : Nat)
    (hnd : (m.map Prod.fst).Nodup) (h : (key, a) ∈ m) : mapLookup m key = some a := by
  induction m with
  | nil => cases h
  | cons e m ih =>
    simp only [List.map_cons, List.nodup_cons] at hnd
    rcases List.mem_cons.1 h with h | h
    · subst h; simp [mapLookup]
    · have hne : ¬ e.1 = key := by
        intro hc
        exact hnd.1 (hc ▸ List.mem_map_of_mem Prod.fst h)
      simp only [mapLookup, hne, if_false]
      exact ih hnd.2 h

theorem mapLookup_delete_none (m : List (K × Nat)) (key key' : K)
    (h : mapLookup m key' = none) : mapLookup (mapDelete m key) key' = none := by
  by_cases hk : key' = key
  · subst hk; exact mapLookup_delete_self _ _
  · rw [mapLookup_delete_ne _ _ _ hk]; exact h

theorem expiredAt_congr (now : Int) (heap heap' : List (Node K V)) (a : Nat)
    (h : (heap'[a]?).map (fun m : Node K V => (m.value, m.exp))
      = (heap[a]?).map (fun m : Node K V => (m.value, m.exp))) :
    expiredAt now heap' a = expiredAt now heap a := by
  unfold expiredAt
  cases h1 : heap[a]? with
  | none =>
    rw [h1] at h
    have h2 : heap'[a]? = none := by simpa using h
    rw [h2]
  | some n =>
    rw [h1] at h
    obtain ⟨n', hn', hg⟩ := getElem?_of_map_eq _ _ _ _ h
    rw [hn']
    simp only [Prod.mk.injEq] at hg
    simp [expired, hg.2]

/-- A round over entries of the map completes, deletes exactly the keys of the
entries that are expired, and leaves every value and expiry instant alone. -/
theorem sweepOver_spec (now : Int) (entries : List (K × Nat)) (s : LRUCache K V)
    (hv : Valid s) (hsub : ∀ e ∈ entries, e ∈ s.items) (hnd : (entries.map Prod.fst).Nodup) :
    ∃ s', sweepOver now entries s = .ok s' ∧
      (∀ k a, mapLookup s.items k = some a → (k, a) ∈ entries →
        expiredAt now s.heap a = true → mapLookup s'.items k = none) ∧
      (∀ k a, mapLookup s.items k = some a →
        ¬ ((k, a) ∈ entries ∧ expiredAt now s.heap a = true) → mapLookup s'.items k = some a) ∧
      (∀ k, mapLookup s.items k = none → mapLookup s'.items k = none) ∧
      (∀ i : Nat, (s'.heap[i]?).map (fun m : Node K V => (m.value, m.exp))
        = (s.heap[i]?).map (fun m : Node K V => (m.value, m.exp))) ∧
      s'.head = s.head ∧ s'.tail = s.tail ∧ s'.cap = s.cap := by
  induction entries generalizing s with
  | nil =>
    refine ⟨s, rfl, ?_, ?_, ?_, fun _ => rfl, rfl, rfl, rfl⟩
    · intro k a _ h; cases h
    · intro k a h _; exact h
    · intro k h; exact h
  | cons e es ih =>
    obtain ⟨key, val⟩ := e
    simp only [List.map_cons, List.nodup_cons] at hnd
    have hmem : (key, val) ∈ s.items := hsub _ (List.mem_cons_self _ _)
    have hlook : mapLookup s.items key = some val := mapLookup_of_mem _ _ _ hv.nodup hmem
    have hlt : val < s.heap.length := hv.items _ hmem
    have hd := deref_of_lt s.heap val hlt
    have hexp : expiredAt now s.heap val = expired now s.heap[val] := by
      simp [expiredAt, List.getElem?_eq_getElem hlt]
    by_cases hx : expired now s.heap[val] = true
    · obtain ⟨heap', hu⟩ := unlink_total s.heap val hv.links hlt
      have hv1 := Valid.unlinkDelete s key val heap' hv hu
      have hsub1 : ∀ e ∈ es, e ∈ mapDelete s.items key := by
        intro e he
        refine mapDelete_mem_of _ _ _ (hsub e (List.mem_cons_of_mem _ he)) ?_
        intro hc
        exact hnd.1 (hc ▸ List.mem_map_of_mem Prod.fst he)
      have hdata := unlink_proj (fun m : Node K V => (m.value, m.exp)) _ _ _ hu
        (fun _ _ _ => rfl)
      obtain ⟨s', hs', p1, p2, p3, p4, p5, p6, p7⟩ :=
        ih { s with heap := heap', items := mapDelete s.items key } hv1 hsub1 hnd.2
      refine ⟨s', ?_, ?_, ?_, ?_, ?_, p5, p6, p7⟩
      · simp only [sweepOver, bind, Except.bind, hd, hx, if_true, hu]
        exact hs'
      · intro k a hk hin _
        by_cases hkk : k = key
        · subst hkk
          exact p3 k (mapLookup_delete_self _ _)
        · have hin' : (k, a) ∈ es := by
            rcases List.mem_cons.1 hin with hc | hc
            · exact absurd (Prod.mk.inj hc).1 hkk
            · exact hc
          rename_i hex
          refine p1 k a ?_ hin' ?_
          · show mapLookup (mapDelete s.items key) k = some a
            rw [mapLookup_delete_ne _ _ _ hkk]; exact hk
          · show expiredAt now heap' a = true
            rw [expiredAt_congr now _ _ a (hdata a)]; exact hex
      · intro k a hk hnot
        by_cases hkk : k = key
        · subst hkk
          rw [hlook] at hk
          cases hk
          exact absurd ⟨List.mem_cons_self _ _, by rw [hexp]; exact hx⟩ hnot
        · refine p2 k a ?_ ?_
          · show mapLookup (mapDelete s.items key) k = some a
            rw [mapLookup_delete_ne _ _ _ hkk]; exact hk
          · rintro ⟨h1, h2⟩
            have h2' : expiredAt now heap' a = true := h2
            rw [expiredAt_congr now _ _ a (hdata a)] at h2'
            exact hnot ⟨List.mem_cons_of_mem _ h1, h2'⟩
      · intro k hk
        exact p3 k (mapLookup_delete_none _ _ _ hk)
      · intro i
        exact (p4 i).trans (hdata i)
    · obtain ⟨s', hs', p1, p2, p3, p4, p5, p6, p7⟩ :=
        ih s hv (fun e he => hsub e (List.mem_cons_of_mem _ he)) hnd.2
      refine ⟨s', ?_, ?_, ?_, p3, p4, p5, p6, p7⟩
      · simp only [sweepOver, bind, Except.bind, hd, hx]
        exact hs'
      · intro k a hk hin hex
        rcases List.mem_cons.1 hin with hc | hc
        · obtain ⟨-, rfl⟩ := Prod.mk.inj hc
          rw [hexp] at hex
          exact absurd hex hx
        · exact p1 k a hk hc hex
      · intro k a hk hnot
        exact p2 k a hk (fun ⟨h1, h2⟩ => hnot ⟨List.mem_cons_of_mem _ h1, h2⟩)

theorem value_of_data (heap heap' : List (Node K V)) (i : Nat)
    (h : (heap'[i]?).map (fun m : Node K V => (m.value, m.exp))
      = (heap[i]?).map (fun m : Node K V => (m.value, m.exp))) :
    (heap'[i]?).map (fun n => n.value) = (heap[i]?).map (fun n => n.value) := by
  have := congrArg (Option.map Prod.fst) h
  simpa [Option.map_map, Function.comp] using this

theorem Get_none (s : LRUCache K V) (key : K) (h : mapLookup s.items key = none) :
    Get s key = .ok (none, false) := by
  simp [Get, h, pure, Except.pure]

/-- A whole round of `checkExpired`, in whatever order the map is ranged over:
it completes, the keys of the expired entries are gone, every other key is
still there with its value. -/
theorem sweep_round (now : Int) (order : List (K × Nat)) (s : LRUCache K V)
    (hv : Valid s) (hp : order.Perm s.items) :
    ∃ s', sweepOver now order s = .ok s' ∧
      (∀ k a, mapLookup s.items k = some a → expiredAt now s.heap a = true →
        mapLookup s'.items k = none ∧ Get s' k = .ok (none, false)) ∧
      (∀ k a, mapLookup s.items k = some a → expiredAt now s.heap a = false →
        mapLookup s'.items k = some a ∧ Get s' k = Get s k) ∧
      (∀ k, mapLookup s.items k = none →
        mapLookup s'.items k = none ∧ Get s' k = .ok (none, false)) := by
  have hnd : (order.map Prod.fst).Nodup := (hp.map Prod.fst).nodup_iff.2 hv.nodup
  obtain ⟨s', hs', p1, p2, p3, p4, -, -, -⟩ :=
    sweepOver_spec now order s hv (fun e he => hp.subset he) hnd
  refine ⟨s', hs', ?_, ?_, ?_⟩
  · intro k a hk hex
    have := p1 k a hk (hp.symm.subset (mapLookup_mem _ _ _ hk)) hex
    exact ⟨this, Get_none _ _ this⟩
  · intro k a hk hex
    have h1 := p2 k a hk (by rintro ⟨-, h2⟩; rw [hex] at h2; cases h2)
    refine ⟨h1, Get_congr _ _ k (h1.trans hk.symm) (fun i => value_of_data _ _ i (p4 i))⟩
  · intro k hk
    exact ⟨p3 k hk, Get_none _ _ (p3 k hk)⟩

theorem add_cap (s s' : LRUCache K V) (key : K) (value : V) (ttl now : Int)
    (h : add s key value ttl now = .ok s') : s'.cap = s.cap := by
  unfold add at h
  split at h
  · simp only [bind_ok_iff, pure_ok_iff] at h
    obtain ⟨s1, h1, rfl⟩ := h
    show s1.cap = s.cap
    split at h1
    · simp only [pure_ok_iff] at h1; subst h1; rfl
    · simp only [bind_ok_iff, pure_ok_iff] at h1
      obtain ⟨s2, h2, heap3, h3, heap4, h4, rfl⟩ := h1
      show s2.cap = s.cap
      split at h2
      · obtain ⟨t, p, -, -, -, hc, -, -⟩ := evict_get _ _ h2
        exact hc
      · simp only [pure_ok_iff] at h2; subst h2; rfl
  · simp only [bind_ok_iff] at h
    obtain ⟨heap1, -, heap2, -, h3⟩ := h
    split at h3
    · obtain ⟨v, h0, -, -, -, -, -, hc, -⟩ := relink_get _ _ _ h3
      exact hc
    · simp only [pure_ok_iff] at h3; subst h3; rfl

/-- Adds whose keys, together with the keys already stored, are no more than
the capacity all complete, and the map holds exactly those keys. -/
theorem run_adds_total (fuel : Nat) (kvs : List (K × V)) (s : LRUCache K V) (hi : Inv s)
    (hcap : (((s.items.map Prod.fst ++ kvs.map Prod.fst).toFinset.card : Nat) : Int) ≤ s.cap) :
    ∃ s', run fuel s (adds kvs) = .ok s' ∧ Inv s' ∧
      (s'.items.map Prod.fst).toFinset = (s.items.map Prod.fst ++ kvs.map Prod.fst).toFinset := by
  induction kvs generalizing s with
  | nil => exact ⟨s, rfl, hi, by simp⟩
  | cons kv rest ih =>
    have hstep : ∃ s1, add s kv.1 kv.2 0 0 = .ok s1 ∧ Inv s1 ∧ s1.cap = s.cap ∧
        (s1.items.map Prod.fst ++ rest.map Prod.fst).toFinset
          = (s.items.map Prod.fst ++ (kv :: rest).map Prod.fst).toFinset := by
      cases hlook : mapLookup s.items kv.1 with
      | some val =>
        obtain ⟨s1, h1⟩ := add_present_total s kv.1 kv.2 0 0 val hi hlook
        obtain ⟨a, n, -, -, -, -, -, -, hsame⟩ := add_entry _ _ _ _ _ _ h1
        have hitems := (hsame val hlook).2.1
        refine ⟨s1, h1, Inv_add _ _ _ _ _ _ hi h1, add_cap _ _ _ _ _ _ h1, ?_⟩
        have hmem : kv.1 ∈ s.items.map Prod.fst :=
          List.mem_map_of_mem Prod.fst (mapLookup_mem _ _ _ hlook)
        rw [hitems]
        ext x
        simp only [List.toFinset_append, List.map_cons, List.toFinset_cons, Finset.mem_union,
          List.mem_toFinset, Finset.mem_insert]
        constructor
        · rintro (h | h)
          · exact Or.inl h
          · exact Or.inr (Or.inr h)
        · rintro (h | h | h)
          · exact Or.inl h
          · exact Or.inl (h ▸ hmem)
          · exact Or.inr h
      | none =>
        have hnot : kv.1 ∉ s.items.map Prod.fst := (mapLookup_eq_none_iff _ _).1 hlook
        have hlen : s.items.length = (s.items.map Prod.fst).toFinset.card := by
          rw [List.toFinset_card_of_nodup hi.valid.nodup, List.length_map]
        have hlt : (s.items.map Prod.fst).toFinset.card
            < (s.items.map Prod.fst ++ (kv :: rest).map Prod.fst).toFinset.card := by
          apply Finset.card_lt_card
          rw [Finset.ssubset_iff_of_subset (by
            intro x hx
            simp only [List.toFinset_append, Finset.mem_union]
            exact Or.inl hx)]
          refine ⟨kv.1, by simp, by simpa using hnot⟩
        have hroom : s.items.length = 0 ∨ (s.items.length : Int) ≠ s.cap := by
          right
          rw [hlen]
          omega
        obtain ⟨s1, h1, hitems, hc⟩ := add_absent_total s kv.1 kv.2 0 0 hi hlook hroom
        refine ⟨s1, h1, Inv_add _ _ _ _ _ _ hi h1, hc, ?_⟩
        rw [hitems, mapStore, mapDelete_of_not_mem _ _ hnot]
        ext x
        simp only [List.map_cons, List.cons_append, List.toFinset_cons, List.toFinset_append,
          Finset.mem_insert, Finset.mem_union, List.mem_toFinset]
        constructor
        · rintro (h | h | h)
          · exact Or.inr (Or.inl h)
          · exact Or.inl h
          · exact Or.inr (Or.inr h)
        · rintro (h | h | h)
          · exact Or.inr (Or.inl h)
          · exact Or.inl h
          · exact Or.inr (Or.inr h)
    obtain ⟨s1, h1, hi1, hc1, hset⟩ := hstep
    obtain ⟨s', hs', hi', hset'⟩ := ih s1 hi1 (by rw [hset, hc1]; exact hcap)
    refine ⟨s', ?_, hi', hset'.trans hset⟩
    simp only [adds, List.map_cons, run, step, Add, bind, Except.bind, h1]
    exact hs'

/-! ### Keys nobody added -/

theorem add_lookup_none (s s' : LRUCache K V) (k key : K) (value : V) (ttl now : Int)
    (h : add s k value ttl now = .ok s') (hne : key ≠ k)
    (hk : mapLookup s.items key = none) : mapLookup s'.items key = none := by
  unfold add at h
  split at h
  · simp only [bind_ok_iff, pure_ok_iff] at h
    obtain ⟨s1, h1, rfl⟩ := h
    show mapLookup (mapStore s1.items k s.heap.length) key = none
    rw [mapLookup_store_ne _ _ _ _ hne]
    split at h1
    · simp only [pure_ok_iff] at h1; subst h1; exact hk
    · simp only [bind_ok_iff, pure_ok_iff] at h1
      obtain ⟨s2, h2, heap3, h3, heap4, h4, rfl⟩ := h1
      show mapLookup s2.items key = none
      split at h2
      · obtain ⟨t, p, -, hitems, -, -, -, -⟩ := evict_get _ _ h2
        rw [hitems]
        exact mapLookup_delete_none _ _ _ hk
      · simp only [pure_ok_iff] at h2; subst h2; exact hk
  · rename_i val hval
    have hadd : add s k value ttl now = .ok s' := by
      unfold add
      rw [hval]
      exact h
    obtain ⟨a, n, -, -, -, -, -, -, hsame⟩ := add_entry _ _ _ _ _ _ hadd
    rw [(hsame val hval).2.1]
    exact hk

theorem Remove_lookup (s s' : LRUCache K V) (k key : K) (h : Remove s k = .ok s') :
    mapLookup s'.items key = if key = k then none else mapLookup s.items key := by
  unfold Remove at h
  split at h
  · simp only [bind_ok_iff, pure_ok_iff] at h
    obtain ⟨heap, -, rfl⟩ := h
    show mapLookup (mapDelete s.items k) key = _
    by_cases hk : key = k
    · subst hk; simp [mapLookup_delete_self]
    · simp [hk, mapLookup_delete_ne _ _ _ hk]
  · rename_i hnone
    simp only [pure_ok_iff] at h
    subst h
    by_cases hk : key = k
    · subst hk; simp [hnone]
    · simp [hk]

theorem run_mayHold (fuel : Nat) (key : K) (ops : List (Op K V)) (s s' : LRUCache K V)
    (b : Bool) (hb : b = false → mapLookup s.items key = none)
    (h : run fuel s ops = .ok s') (hm : mayHold key b ops = false) :
    mapLookup s'.items key = none := by
  induction ops generalizing s b with
  | nil =>
    simp only [run, pure_ok_iff] at h
    subst h
    exact hb hm
  | cons op ops ih =>
    simp only [run, bind_ok_iff] at h
    obtain ⟨s1, h1, h2⟩ := h
    cases op with
    | Add k v =>
      refine ih s1 (b || decide (k = key)) ?_ h2 hm
      intro hf
      simp only [Bool.or_eq_false_iff, decide_eq_false_iff_not] at hf
      exact add_lookup_none _ _ _ _ _ _ _ h1 (fun hc => hf.2 hc.symm) (hb hf.1)
    | AddWithTTL k v ttl now =>
      refine ih s1 (b || decide (k = key)) ?_ h2 hm
      intro hf
      simp only [Bool.or_eq_false_iff, decide_eq_false_iff_not] at hf
      exact add_lookup_none _ _ _ _ _ _ _ h1 (fun hc => hf.2 hc.symm) (hb hf.1)
    | Get k =>
      simp only [step, bind_ok_iff, pure_ok_iff] at h1
      obtain ⟨_, -, rfl⟩ := h1
      exact ih s b hb h2 hm
    | Remove k =>
      refine ih s1 (b && !decide (k = key)) ?_ h2 hm
      intro hf
      rw [Remove_lookup s s1 k key h1]
      by_cases hk : key = k
      · simp [hk]
      · have hk' : ¬ k = key := fun hc => hk hc.symm
        simp only [hk, if_false]
        simp only [hk', decide_False, Bool.not_false, Bool.and_true] at hf
        exact hb hf
    | Clear =>
      refine ih s1 false ?_ h2 hm
      intro _
      rw [(Clear_ok_fresh fuel s s1 h1).1]
      rfl

/-- The entry of a new key written by `Add` is still there after a round of
the sweeper. -/
theorem sweep_after_new_add (now : Int) (s0 s : LRUCache K V) (order : List (K × Nat))
    (key : K) (value : V) (hv : Valid s) (hp : order.Perm s.items)
    (hnone : mapLookup s0.items key = none) (hadd : Add s0 key value = .ok s) :
    ∃ s', sweepOver now order s = .ok s' ∧ Get s' key = .ok (some value, true) := by
  obtain ⟨s', hs', -, p2, -⟩ := sweep_round now order s hv hp
  obtain ⟨a, n, -, hk, hn, -, -, hexp, -⟩ := add_entry _ _ _ _ _ _ hadd
  have he : n.exp = 0 := hexp rfl hnone
  have hx : expiredAt now s.heap a = false := by
    simp [expiredAt, hn, expired, he]
  refine ⟨s', hs', ?_⟩
  rw [(p2 key a hk hx).2]
  exact add_then_Get _ _ _ _ _ _ hadd

end Lemmas

/-! ## The claims -/

section Claims

variable {K V : Type} [DecidableEq K]

/-- C1: for every capacity `c >= 2` and every list of `c + 1` pairwise distinct
keys with their values, the calls `Add(ki, vi)` in that order on `NewCache(c)`
all complete and leave `Len() = Cap() = c`, the first key absent from the
store, every later key present with its value, the entry at `head` holding the
last value and the entry at `tail` holding the second value. -/
theorem C1_adds_one_beyond_capacity (fuel c : Nat) (kvs : List (K × V)) (hc : 2 ≤ c)
    (hlen : kvs.length = c + 1) (hnd : (kvs.map Prod.fst).Nodup) :
    ∃ s, run fuel (NewCache (c : Int)) (adds kvs) = .ok s ∧
      Len s = c ∧ Cap s = c ∧
      (∃ kv, kvs[0]? = some kv ∧ mapLookup s.items kv.1 = none ∧
        Get s kv.1 = .ok (none, false)) ∧
      (∀ i kv, 1 ≤ i → kvs[i]? = some kv → Get s kv.1 = .ok (some kv.2, true)) ∧
      (∃ kv, kvs[c]? = some kv ∧ (deref s.heap s.head).map (fun n => n.value) = .ok kv.2) ∧
      (∃ kv, kvs[1]? = some kv ∧ (deref s.heap s.tail).map (fun n => n.value) = .ok kv.2) := by
  rcases List.eq_nil_or_concat kvs with rfl | ⟨init, kv, hkvs⟩
  · simp at hlen
  rw [List.concat_eq_append] at hkvs
  subst hkvs
  have hc' : init.length = c := by
    simp only [List.length_append, List.length_singleton] at hlen; omega
  subst hc'
  rw [List.map_append, List.nodup_append] at hnd
  obtain ⟨hnd1, -, hdis⟩ := hnd
  have hnew : kv.1 ∉ init.map Prod.fst := fun hmem => hdis hmem (by simp)
  obtain ⟨x0, h0⟩ : ∃ x0, init[0]? = some x0 :=
    ⟨init[0], List.getElem?_eq_getElem (by omega)⟩
  obtain ⟨x1, h1⟩ : ∃ x1, init[1]? = some x1 :=
    ⟨init[1], List.getElem?_eq_getElem (by omega)⟩
  obtain ⟨s', hadd, hitems, hcap, hhead, htail, hval⟩ := Add_chain_full init kv x0 x1 h0 h1 hnew
  have hrun : run fuel (NewCache (init.length : Int)) (adds (init ++ [kv])) = .ok s' := by
    have hpre := run_adds_chain fuel (init.length : Int) init hnd1 (le_refl _)
    simp only [adds, List.map_append, List.map_cons, List.map_nil] at hpre ⊢
    rw [run_append, hpre]
    simp only [Except.bind, run, step, bind, hadd]
    rfl
  have hx0mem : x0.1 ∈ init.map Prod.fst := List.mem_map_of_mem Prod.fst (List.getElem?_mem h0)
  have hx0ne : x0.1 ≠ kv.1 := fun he => hnew (he ▸ hx0mem)
  have hkeys := chainItems_keys init
  have hx0in : x0.1 ∈ (chainItems init).map Prod.fst := by rw [hkeys]; simpa using hx0mem
  have hndI : ((chainItems init).map Prod.fst).Nodup := by
    rw [hkeys]; exact List.nodup_reverse.2 hnd1
  have hkvout : kv.1 ∉ (mapDelete (chainItems init) x0.1).map Prod.fst := by
    intro hmem
    obtain ⟨e, he, hk⟩ := List.mem_map.1 hmem
    have hin : e.1 ∈ (chainItems init).map Prod.fst :=
      List.mem_map_of_mem Prod.fst (mapDelete_mem _ _ e he).1
    rw [hkeys, hk] at hin
    exact hnew (by simpa using hin)
  have hlook0 : mapLookup s'.items x0.1 = none := by
    rw [hitems, mapLookup_store_ne _ _ _ _ hx0ne, mapLookup_delete_self]
  refine ⟨s', hrun, ?_, hcap, ⟨x0, ?_, hlook0, ?_⟩, ?_, ⟨kv, ?_, ?_⟩, ⟨x1, ?_, ?_⟩⟩
  · -- Len
    have hl := mapDelete_length (chainItems init) x0.1 hndI hx0in
    rw [chainItems_length] at hl
    simp only [Len, hitems, mapStore, List.length_cons, mapDelete_of_not_mem _ _ hkvout]
    omega
  · rw [List.getElem?_append_left (by omega)]; exact h0
  · simp [Get, hlook0, pure, Except.pure]
  · intro i y hi hy
    rw [List.getElem?_append] at hy
    split at hy
    · rename_i hlt
      have hymem : y.1 ∈ init.map Prod.fst := List.mem_map_of_mem Prod.fst (List.getElem?_mem hy)
      have hyne : y.1 ≠ kv.1 := fun he => hnew (he ▸ hymem)
      have hli := chainItems_lookup init hnd1 i y hy
      have hl0 := chainItems_lookup init hnd1 0 x0 h0
      have hyx : y.1 ≠ x0.1 := by
        intro he
        rw [he, hl0] at hli
        simp only [Option.some.injEq] at hli
        omega
      refine Get_of_value s' y.1 i y.2 ?_ ?_
      · rw [hitems, mapLookup_store_ne _ _ _ _ hyne, mapLookup_delete_ne _ _ _ hyx]
        exact hli
      · rw [hval i, List.getElem?_append_left (by rw [chainHeap_length]; exact hlt),
          chainHeap_getElem?, hy]
        rfl
    · have hi0 : i - init.length = 0 := by
        cases hd : i - init.length with
        | zero => rfl
        | succ j => rw [hd] at hy; simp at hy
      rw [hi0] at hy
      simp only [List.getElem?_cons_zero, Option.some.injEq] at hy
      subst hy
      exact add_then_Get _ _ _ _ 0 0 hadd
  · exact List.getElem?_concat_length _ _
  · rw [hhead]
    refine deref_value_of _ _ _ ?_
    rw [hval, ← chainHeap_length init, List.getElem?_concat_length]
    rfl
  · rw [List.getElem?_append_left (by omega)]; exact h1
  · rw [htail]
    refine deref_value_of _ _ _ ?_
    rw [hval, List.getElem?_append_left (by rw [chainHeap_length]; omega),
      chainHeap_getElem?, h1]
    rfl

/-- Witness of C1: capacity 2 and the keys 1, 2, 3 of `TestAddDelete`. -/
theorem C1_adds_one_beyond_capacity_witness :
    ∃ s : LRUCache Nat Nat, run 0 (NewCache ((2 : Nat) : Int)) (adds [(1, 10), (2, 20), (3, 30)])
        = .ok s ∧
      Len s = (2 : Nat) ∧ Cap s = (2 : Nat) ∧
      (∃ kv, [(1, 10), (2, 20), (3, 30)][0]? = some kv ∧ mapLookup s.items kv.1 = none ∧
        Get s kv.1 = .ok (none, false)) ∧
      (∀ i kv, 1 ≤ i → [(1, 10), (2, 20), (3, 30)][i]? = some kv →
        Get s kv.1 = .ok (some kv.2, true)) ∧
      (∃ kv, [(1, 10), (2, 20), (3, 30)][2]? = some kv ∧
        (deref s.heap s.head).map (fun n => n.value) = .ok kv.2) ∧
      (∃ kv, [(1, 10), (2, 20), (3, 30)][1]? = some kv ∧
        (deref s.heap s.tail).map (fun n => n.value) = .ok kv.2) :=
  C1_adds_one_beyond_capacity 0 2 [(1, 10), (2, 20), (3, 30)] (by decide) (by decide) (by decide)

/-- C2 against the code: the claim holds of an LRU cache and `add` breaks it.
On capacity 2, after `Add(1)`, `Add(2)`, `Add(1)` the cache holds 2 keys and
`Add(3)` dereferences nil.  On capacity 3, after `Add(1)`, `Add(2)`, `Add(3)`,
`Add(1)`, `Add(2)` the cache holds keys 1, 2, 3, key 3 being the one added
longest ago, and `Add(4)` removes key 1 and keeps key 3. -/
theorem C2_eviction_after_retouch :
    (run 0 (NewCache 2 : LRUCache Nat Nat) [Op.Add 1 10, Op.Add 2 20, Op.Add 1 11]).map Len
        = .ok 2 ∧
    run 0 (NewCache 2 : LRUCache Nat Nat) [Op.Add 1 10, Op.Add 2 20, Op.Add 1 11, Op.Add 3 30]
        = .error .nilDeref ∧
    (run 0 (NewCache 3 : LRUCache Nat Nat)
        [Op.Add 1 10, Op.Add 2 20, Op.Add 3 30, Op.Add 1 11, Op.Add 2 21]).map
        (fun s => s.items.map Prod.fst) = .ok [3, 2, 1] ∧
    (run 0 (NewCache 3 : LRUCache Nat Nat)
        [Op.Add 1 10, Op.Add 2 20, Op.Add 3 30, Op.Add 1 11, Op.Add 2 21, Op.Add 4 40]).map
        (fun s => s.items.map Prod.fst) = .ok [4, 3, 2] :=
  ⟨rfl, rfl, rfl, rfl⟩

/-- C3 against the code: on capacity 2, `Add(1)`, `Add(2)`, `Remove(1)`,
`Add(3)`, `Add(4)` all complete and leave `Len() = 3` with `Cap() = 2`. -/
theorem C3_len_exceeds_cap :
    (run 0 (NewCache 2 : LRUCache Nat Nat)
        [Op.Add 1 10, Op.Add 2 20, Op.Remove 1, Op.Add 3 30, Op.Add 4 40]).map
        (fun s => (Len s, Cap s)) = .ok (3, 2) :=
  rfl

/-- C4 against the code: on capacity 1 the entry left by `Add(1)` is `tail`
with a nil `prev`, and the following `Add(2)` dereferences nil in the eviction
step. -/
theorem C4_capacity_one_nil_deref :
    (deref (after 1 [Op.Add 1 10] : LRUCache Nat Nat).heap
        (after 1 [Op.Add 1 10] : LRUCache Nat Nat).tail).map (fun n => n.prev) = .ok none ∧
    evict (after 1 [Op.Add 1 10] : LRUCache Nat Nat) = .error .nilDeref ∧
    run 0 (NewCache 1 : LRUCache Nat Nat) [Op.Add 1 10, Op.Add 2 20] = .error .nilDeref :=
  ⟨rfl, rfl, rfl⟩

/-- C5: in every state reached from a fresh cache by completed calls, for every
key and value, once `Add(key, value)` or `AddWithTTL(key, value, ttl)` has
completed the next `Get(key)` returns `(value, true)`, whether the key was new
or already present with another value. -/
theorem C5_get_after_add (cap : Int) (s s' : LRUCache K V) (key : K) (value : V) (ttl now : Int)
    (hr : Reachable cap s)
    (h : Add s key value = .ok s' ∨ AddWithTTL s key value ttl now = .ok s') :
    Get s' key = .ok (some value, true) := by
  have _ := hr
  rcases h with h | h
  · exact add_then_Get s s' key value 0 0 h
  · exact add_then_Get s s' key value ttl now h

/-- Witness of C5: key 1, present with value 10 in a reachable state, is
rewritten with 11 and reads back 11. -/
theorem C5_get_after_add_witness :
    Get (after 2 [Op.Add 1 10, Op.Add 2 20, Op.Add 1 11] : LRUCache Nat Nat) 1
      = .ok (some 11, true) :=
  C5_get_after_add 2 (after 2 [Op.Add 1 10, Op.Add 2 20] : LRUCache Nat Nat)
    (after 2 [Op.Add 1 10, Op.Add 2 20, Op.Add 1 11]) 1 11 0 0
    ⟨0, [Op.Add 1 10, Op.Add 2 20], rfl⟩ (Or.inl rfl)

/-- C6, as stated, fails: after `Add(1, 10)`, `Add(2, 20)` on a cache of
capacity 10 the key 1 is present, `Get(1)` returns, and `head` is still the
entry of key 2, not the entry of key 1. -/
theorem C6_get_promotes_counterexample :
    ¬ ∀ (s s' : LRUCache Nat Nat) (key a : Nat), Reachable 10 s →
        mapLookup s.items key = some a → step 0 s (Op.Get key) = .ok s' → s'.head = some a := by
  intro h
  have := h (after 10 [Op.Add 1 10, Op.Add 2 20]) (after 10 [Op.Add 1 10, Op.Add 2 20]) 1 0
    ⟨0, [Op.Add 1 10, Op.Add 2 20], rfl⟩ rfl rfl
  exact absurd this (by decide)

/-- C6, amended: in every state reached from a fresh cache by completed calls,
for every key present in the store, `Get(key)` returns the value held by the
store's entry for the key, with `true`, and leaves `head` what it was before
the call: a read does not promote, and `head` is the entry of the key only if
it already was. -/
theorem C6_get_keeps_head (cap : Int) (fuel : Nat) (s : LRUCache K V) (key : K) (a : Nat)
    (hr : Reachable cap s) (hk : mapLookup s.items key = some a) :
    ∃ n, s.heap[a]? = some n ∧ n.key = key ∧ Get s key = .ok (some n.value, true) ∧
      step fuel s (Op.Get key) = .ok s ∧
      ∀ s', step fuel s (Op.Get key) = .ok s' →
        s'.head = s.head ∧ (s'.head = some a ↔ s.head = some a) := by
  have hi := Reachable_inv cap s hr
  obtain ⟨n, hn, hkey⟩ := hi.keys key a (mapLookup_mem _ _ _ hk)
  have hg : Get s key = .ok (some n.value, true) :=
    Get_of_value s key a n.value hk (by rw [hn]; rfl)
  have hstep : step fuel s (Op.Get key) = .ok s := by
    simp [step, hg, bind, Except.bind, pure, Except.pure]
  refine ⟨n, hn, hkey, hg, hstep, ?_⟩
  intro s' hs'
  rw [hstep] at hs'
  cases hs'
  exact ⟨rfl, Iff.rfl⟩

/-- Witness of C6 amended: after `Add(1, 10)`, `Add(2, 20)` a `Get(1)` returns
the value 10 held by the node of key 1 and `head` stays the entry of key 2. -/
theorem C6_get_keeps_head_witness :
    ∃ n, (after 10 [Op.Add 1 10, Op.Add 2 20] : LRUCache Nat Nat).heap[0]? = some n ∧
      n.key = 1 ∧
      Get (after 10 [Op.Add 1 10, Op.Add 2 20] : LRUCache Nat Nat) 1
        = .ok (some n.value, true) ∧
      step 0 (after 10 [Op.Add 1 10, Op.Add 2 20] : LRUCache Nat Nat) (Op.Get 1)
        = .ok (after 10 [Op.Add 1 10, Op.Add 2 20]) ∧
      ∀ s', step 0 (after 10 [Op.Add 1 10, Op.Add 2 20] : LRUCache Nat Nat) (Op.Get 1) = .ok s' →
        s'.head = (after 10 [Op.Add 1 10, Op.Add 2 20] : LRUCache Nat Nat).head ∧
        (s'.head = some 0 ↔
          (after 10 [Op.Add 1 10, Op.Add 2 20] : LRUCache Nat Nat).head = some 0) :=
  C6_get_keeps_head 10 0 (after 10 [Op.Add 1 10, Op.Add 2 20] : LRUCache Nat Nat) 1 0
    ⟨0, [Op.Add 1 10, Op.Add 2 20], rfl⟩ rfl

/-- C7: in every state reached from a fresh cache by completed calls, for every
key present in the store, `Remove(key)` completes, makes `Len()` one less,
makes `Get(key)` return `(nil, false)` and leaves what `Get` returns for every
other key as it was. -/
theorem C7_remove_present (cap : Int) (s : LRUCache K V) (key : K)
    (hr : Reachable cap s) (hk : mapLookup s.items key ≠ none) :
    ∃ s', Remove s key = .ok s' ∧ Len s' = Len s - 1 ∧ Get s' key = .ok (none, false) ∧
      ∀ key', key' ≠ key → Get s' key' = Get s key' := by
  have hv := Reachable.valid cap s hr
  obtain ⟨a, ha⟩ := Option.ne_none_iff_exists'.1 hk
  have hlt : a < s.heap.length := hv.items _ (mapLookup_mem _ _ _ ha)
  obtain ⟨heap', hheap⟩ := unlink_total s.heap a hv.links hlt
  have hrem : Remove s key = .ok { s with heap := heap', items := mapDelete s.items key } := by
    simp [Remove, ha, hheap, bind, Except.bind, pure, Except.pure]
  refine ⟨_, hrem, ?_, ?_, ?_⟩
  · have hmem : key ∈ s.items.map Prod.fst := by
      by_contra hc
      rw [(mapLookup_eq_none_iff s.items key).2 hc] at ha
      cases ha
    have := mapDelete_length s.items key hv.nodup hmem
    simp only [Len]
    omega
  · simp [Get, mapLookup_delete_self, pure, Except.pure]
  · intro key' hne
    exact Get_congr _ _ key' (mapLookup_delete_ne _ _ _ hne) (unlink_value _ _ _ hheap)

/-- Witness of C7: removing key 2 from the cache holding 1, 2 and 3. -/
theorem C7_remove_present_witness :
    ∃ s', Remove (after 3 [Op.Add 1 10, Op.Add 2 20, Op.Add 3 30] : LRUCache Nat Nat) 2 = .ok s' ∧
      Len s' = Len (after 3 [Op.Add 1 10, Op.Add 2 20, Op.Add 3 30] : LRUCache Nat Nat) - 1 ∧
      Get s' 2 = .ok (none, false) ∧
      ∀ key', key' ≠ 2 →
        Get s' key' = Get (after 3 [Op.Add 1 10, Op.Add 2 20, Op.Add 3 30] : LRUCache Nat Nat) key' :=
  C7_remove_present 3 (after 3 [Op.Add 1 10, Op.Add 2 20, Op.Add 3 30]) 2
    ⟨0, [Op.Add 1 10, Op.Add 2 20, Op.Add 3 30], rfl⟩ (by decide)

/-- C8 against the code: on capacity 3, after `Add(1)`, `Add(2)`, `Add(3)` and
`Remove(3)` the node at `head` still has key 3; after a further `Remove(2)`,
with key 2 present before it, the walk from `head` along `next` to `tail`
steps onto the nodes of keys 2 and 1. -/
theorem C8_walk_meets_removed_key :
    ((run 0 (NewCache 3 : LRUCache Nat Nat)
        [Op.Add 1 10, Op.Add 2 20, Op.Add 3 30, Op.Remove 3]).bind
        (fun s => deref s.heap s.head)).map (fun n => n.key) = .ok 3 ∧
    (run 0 (NewCache 3 : LRUCache Nat Nat)
        [Op.Add 1 10, Op.Add 2 20, Op.Add 3 30, Op.Remove 3]).map
        (fun s => mapLookup s.items 2) = .ok (some 1) ∧
    (run 0 (NewCache 3 : LRUCache Nat Nat)
        [Op.Add 1 10, Op.Add 2 20, Op.Add 3 30, Op.Remove 3, Op.Remove 2]).bind
        (fun s => walk s 3 s.head) = .ok [2, 1] :=
  ⟨rfl, rfl, rfl⟩

/-- C9 against the code: on capacity 2, after `Add(1)`, `Add(2)`, `Remove(1)`
the call `Clear` does not complete: with any fuel at all its loop steps off the
end of the list and dereferences nil. -/
theorem C9_clear_nil_deref (fuel : Nat) :
    run (fuel + 1) (NewCache 2 : LRUCache Nat Nat)
        [Op.Add 1 10, Op.Add 2 20, Op.Remove 1, Op.Clear] = .error .nilDeref :=
  rfl

/-- C10 against the code: on capacity 3, `Add(1)`, `Add(2)`, `Add(3)`,
`Remove(3)`, `Add(2)` all complete and leave the nodes of keys 2 and 3 linked
to each other through `next`, with `tail` outside that cycle; the loop of
`Clear` then never stops: whatever the fuel, it is used up. -/
theorem C10_clear_loops_forever (fuel : Nat) :
    (run fuel (NewCache 3 : LRUCache Nat Nat)
        [Op.Add 1 10, Op.Add 2 20, Op.Add 3 30, Op.Remove 3, Op.Add 2 21]).map
        (fun s => (s.head, s.tail, s.heap.map (fun n => n.next)))
        = .ok (some 1, some 0, [none, some 2, some 1]) ∧
    run fuel (NewCache 3 : LRUCache Nat Nat)
        [Op.Add 1 10, Op.Add 2 20, Op.Add 3 30, Op.Remove 3, Op.Add 2 21, Op.Clear]
        = .error .fuel := by
  refine ⟨rfl, ?_⟩
  have hpre : run fuel (NewCache 3 : LRUCache Nat Nat)
      [Op.Add 1 10, Op.Add 2 20, Op.Add 3 30, Op.Remove 3, Op.Add 2 21]
      = .ok (after 3 [Op.Add 1 10, Op.Add 2 20, Op.Add 3 30, Op.Remove 3, Op.Add 2 21]) := rfl
  have hsplit : [Op.Add 1 10, Op.Add 2 20, Op.Add 3 30, Op.Remove 3, Op.Add 2 21, Op.Clear]
      = [Op.Add 1 10, Op.Add 2 20, Op.Add 3 30, Op.Remove 3, Op.Add 2 21] ++ [(Op.Clear : Op Nat Nat)] :=
    rfl
  rw [hsplit, run_append, hpre]
  cases fuel with
  | zero => rfl
  | succ n =>
    have hloop : clearLoop (n + 1)
        { (after 3 [Op.Add 1 10, Op.Add 2 20, Op.Add 3 30, Op.Remove 3, Op.Add 2 21] :
            LRUCache Nat Nat) with items := [] }
        = clearLoop n (cycleState 2) := rfl
    simp only [Except.bind, run, step, Clear, bind, hloop, (clearLoop_cycle n).2]

/-- C11 against the code: `Get` (lines 127-136) releases the read lock and only
then, in its `return`, reads `val.value`; for a key that is present the read of
the entry's field happens with no lock held, while `Len` reads under the
lock. -/
theorem C11_get_reads_value_unlocked :
    GetEvents (after 3 [Op.Add 1 10] : LRUCache Nat Nat) 1
      = [Event.RLock, Event.readItems, Event.RUnlock, Event.readNode 0] ∧
    lockedReads false (GetEvents (after 3 [Op.Add 1 10] : LRUCache Nat Nat) 1) = false ∧
    lockedReads false (LenEvents (after 3 [Op.Add 1 10] : LRUCache Nat Nat)) = true :=
  ⟨rfl, rfl, rfl⟩

/-- C12: in every state reached by completed calls and rounds of the sweeper,
one round of `checkExpired` with the clock reading `now`, whatever the order in
which it ranges over the map, completes, deletes exactly the keys whose entry
has a non-zero expiry instant before `now` and leaves every other key with its
value.  Hence an entry with a zero expiry instant stays; if the state is the
one left by `AddWithTTL(k, v, ttl)` with `ttl > 0` at the instant `t0` (a clock
reading, so not before the zero instant), the key reads back `v` after a round
at `now <= t0 + ttl` and is gone after a round at `now > t0 + ttl`; and if it
is the one left by `Add(k, v)` of a new key, the key reads back `v` after a
round at any instant. -/
theorem C12_sweep_round (cap now : Int) (s : LRUCache K V) (order : List (K × Nat))
    (hr : Reached cap s) (hp : order.Perm s.items) :
    ∃ s', sweepOver now order s = .ok s' ∧
      (∀ k a, mapLookup s.items k = some a → expiredAt now s.heap a = true →
        mapLookup s'.items k = none ∧ Get s' k = .ok (none, false)) ∧
      (∀ k a, mapLookup s.items k = some a → expiredAt now s.heap a = false →
        mapLookup s'.items k = some a ∧ Get s' k = Get s k) ∧
      (∀ k, mapLookup s.items k = none →
        mapLookup s'.items k = none ∧ Get s' k = .ok (none, false)) ∧
      (∀ k a n, mapLookup s.items k = some a → s.heap[a]? = some n → n.exp = 0 →
        mapLookup s'.items k = some a ∧ Get s' k = Get s k) ∧
      (∀ s0 k v ttl t0, 0 < ttl → 0 ≤ t0 → AddWithTTL s0 k v ttl t0 = .ok s →
        (now ≤ t0 + ttl → Get s' k = .ok (some v, true)) ∧
        (t0 + ttl < now → Get s' k = .ok (none, false))) ∧
      (∀ s0 k v, mapLookup s0.items k = none → Add s0 k v = .ok s →
        Get s' k = .ok (some v, true)) := by
  obtain ⟨s', hs', p1, p2, p3⟩ := sweep_round now order s (Reached_inv cap s hr).valid hp
  refine ⟨s', hs', p1, p2, p3, ?_, ?_, ?_⟩
  · intro k a n hk hn h0
    exact p2 k a hk (by simp [expiredAt, hn, expired, h0])
  · intro s0 k v ttl t0 httl ht0 hadd
    obtain ⟨a, n, -, hk, hn, hval, hexp, -, -⟩ := add_entry _ _ _ _ _ _ hadd
    have he : n.exp = t0 + ttl := hexp (by omega)
    have hget : Get s k = .ok (some v, true) := add_then_Get _ _ _ _ _ _ hadd
    constructor
    · intro hle
      have hx : expiredAt now s.heap a = false := by
        have : ¬ t0 + ttl < now := by omega
        simp [expiredAt, hn, expired, he, this]
      rw [(p2 k a hk hx).2]
      exact hget
    · intro hlt
      have hx : expiredAt now s.heap a = true := by
        have : ¬ t0 + ttl = 0 := by omega
        simp [expiredAt, hn, expired, he, this, hlt]
      exact (p1 k a hk hx).2
  · intro s0 k v hnone hadd
    obtain ⟨a, n, -, hk, hn, -, -, hexp, -⟩ := add_entry _ _ _ _ _ _ hadd
    have he : n.exp = 0 := hexp rfl hnone
    have hx : expiredAt now s.heap a = false := by
      simp [expiredAt, hn, expired, he]
    rw [(p2 k a hk hx).2]
    exact add_then_Get _ _ _ _ _ _ hadd

/-- Witness of C12: key 1 written with ttl 5 at instant 0 and key 2 written by
`Add`; a round at instant 6 removes key 1 and keeps key 2. -/
theorem C12_sweep_round_witness :
    ∃ s' : LRUCache Nat Nat,
      checkExpired 6 (after 3 [Op.AddWithTTL 1 10 5 0, Op.Add 2 20]) = .ok s' ∧
      Get s' 1 = .ok (none, false) ∧
      Get s' 2 = Get (after 3 [Op.AddWithTTL 1 10 5 0, Op.Add 2 20] : LRUCache Nat Nat) 2 :=
  match C12_sweep_round 3 6 (after 3 [Op.AddWithTTL 1 10 5 0, Op.Add 2 20] : LRUCache Nat Nat)
      (after 3 [Op.AddWithTTL 1 10 5 0, Op.Add 2 20] : LRUCache Nat Nat).items
      (Reachable_reached 3 (after 3 [Op.AddWithTTL 1 10 5 0, Op.Add 2 20] : LRUCache Nat Nat)
        ⟨0, [Op.AddWithTTL 1 10 5 0, Op.Add 2 20], rfl⟩)
      (List.Perm.refl _) with
  | ⟨s', hs', p1, p2, _⟩ => ⟨s', hs', (p1 1 0 rfl rfl).2, (p2 2 1 rfl rfl).2⟩

/-- C13, as stated, fails: with the negative ttl -5 at instant 100,
`AddWithTTL(1, 10, ttl)` on a fresh cache does not produce the state that
`Add(1, 10)` produces: the entry gets the expiry instant 95 instead of none,
and the round of the sweeper at instant 100 removes it, while it keeps the
entry written by `Add`. -/
theorem C13_negative_ttl_counterexample :
    (¬ ∀ (s : LRUCache Nat Nat) (key value : Nat) (ttl now : Int), ttl ≤ 0 →
        AddWithTTL s key value ttl now = Add s key value) ∧
    (AddWithTTL (NewCache 3 : LRUCache Nat Nat) 1 10 (-5) 100).map
        (fun s => s.heap.map (fun n => n.exp)) = .ok [95] ∧
    (Add (NewCache 3 : LRUCache Nat Nat) 1 10).map
        (fun s => s.heap.map (fun n => n.exp)) = .ok [0] ∧
    ((AddWithTTL (NewCache 3 : LRUCache Nat Nat) 1 10 (-5) 100).bind (checkExpired 100)).bind
        (fun s => Get s 1) = .ok (none, false) ∧
    ((Add (NewCache 3 : LRUCache Nat Nat) 1 10).bind (checkExpired 100)).bind
        (fun s => Get s 1) = .ok (some 10, true) := by
  refine ⟨?_, rfl, rfl, rfl, rfl⟩
  intro h
  have h1 := h (NewCache 3) 1 10 (-5) 100 (by decide)
  have h2 := congrArg (Except.map (fun s : LRUCache Nat Nat => s.heap.map (fun n => n.exp))) h1
  have h3 : (Except.ok [95] : Except Fault (List Int)) = Except.ok [0] := h2
  exact absurd (Except.ok.inj h3) (by decide)

/-- C13, amended: in every reached state, `AddWithTTL(k, v, 0)` produces the
state that `Add(k, v)` produces; the entry it leaves has no expiry instant if
the key is new and the expiry instant it had if the key was present, and a new
key is still there with its value after a round of the sweeper at any instant.
With a negative ttl the entry gets the expiry instant `now + ttl`, as with a
positive one. -/
theorem C13_zero_ttl_is_add (cap now : Int) (s : LRUCache K V) (key : K) (value : V)
    (hr : Reached cap s) :
    AddWithTTL s key value 0 now = Add s key value ∧
    (∀ s', Add s key value = .ok s' →
      ∃ a n, mapLookup s'.items key = some a ∧ s'.heap[a]? = some n ∧
        (mapLookup s.items key = none → n.exp = 0) ∧
        (∀ a0 n0, mapLookup s.items key = some a0 → s.heap[a0]? = some n0 →
          a0 = a ∧ n.exp = n0.exp)) ∧
    (∀ s' t order, mapLookup s.items key = none → Add s key value = .ok s' →
      order.Perm s'.items →
      ∃ s'', sweepOver t order s' = .ok s'' ∧ Get s'' key = .ok (some value, true)) ∧
    (∀ ttl s', ttl < 0 → AddWithTTL s key value ttl now = .ok s' →
      ∃ a n, mapLookup s'.items key = some a ∧ s'.heap[a]? = some n ∧ n.exp = now + ttl) := by
  refine ⟨?_, ?_, ?_, ?_⟩
  · simp [AddWithTTL, Add, add, freshNode]
  · intro s' hadd
    obtain ⟨a, n, -, hk, hn, -, -, hz, hsame⟩ := add_entry _ _ _ _ _ _ hadd
    refine ⟨a, n, hk, hn, hz rfl, ?_⟩
    intro a0 n0 ha0 hn0
    obtain ⟨h1, -, h3⟩ := hsame a0 ha0
    exact ⟨h1, h3 n0 hn0 rfl⟩
  · intro s' t order hnone hadd hp
    have hr' : Reached cap s' := Reached.call 0 s s' (Op.Add key value) hr hadd
    exact sweep_after_new_add t s s' order key value (Reached_inv cap s' hr').valid hp hnone hadd
  · intro ttl s' hneg hadd
    obtain ⟨a, n, -, hk, hn, -, hexp, -, -⟩ := add_entry _ _ _ _ _ _ hadd
    exact ⟨a, n, hk, hn, hexp (by omega)⟩

/-- Witness of C13 amended: with ttl 0 the call on the cache holding key 1
gives the state `Add` gives. -/
theorem C13_zero_ttl_is_add_witness :
    AddWithTTL (after 3 [Op.Add 1 10] : LRUCache Nat Nat) 2 20 0 100
      = Add (after 3 [Op.Add 1 10] : LRUCache Nat Nat) 2 20 :=
  (C13_zero_ttl_is_add 3 100 (after 3 [Op.Add 1 10] : LRUCache Nat Nat) 2 20
    (Reachable_reached 3 (after 3 [Op.Add 1 10] : LRUCache Nat Nat)
      ⟨0, [Op.Add 1 10], rfl⟩)).1

/-- C14: for every capacity `c` and every sequence of `Add` calls on
`NewCache(c)` whose number of distinct keys is at most `c`, every call
completes and `Len()` is then the number of distinct keys of the sequence. -/
theorem C14_len_counts_distinct_keys (fuel : Nat) (c : Int) (kvs : List (K × V))
    (hle : (((kvs.map Prod.fst).dedup.length : Nat) : Int) ≤ c) :
    ∃ s, run fuel (NewCache c) (adds kvs) = .ok s ∧
      Len s = ((kvs.map Prod.fst).dedup.length : Nat) := by
  obtain ⟨s, hrun, hi, hset⟩ := run_adds_total fuel kvs (NewCache c) (Inv_NewCache c) (by
    simp only [NewCache, List.map_nil, List.nil_append, List.card_toFinset]
    exact hle)
  refine ⟨s, hrun, ?_⟩
  have h1 : s.items.length = (s.items.map Prod.fst).toFinset.card := by
    rw [List.toFinset_card_of_nodup hi.valid.nodup, List.length_map]
  simp only [NewCache, List.map_nil, List.nil_append] at hset
  rw [Len, h1, hset, List.card_toFinset]

/-- Witness of C14: four calls with the two keys 1 and 2 on capacity 2. -/
theorem C14_len_counts_distinct_keys_witness :
    ∃ s : LRUCache Nat Nat,
      run 0 (NewCache 2) (adds [(1, 10), (2, 20), (1, 11), (2, 21)]) = .ok s ∧
      Len s = (([(1, 10), (2, 20), (1, 11), (2, 21)].map Prod.fst).dedup.length : Nat) :=
  C14_len_counts_distinct_keys 0 2 [(1, 10), (2, 20), (1, 11), (2, 21)] (by decide)

/-- C15: in every state reached from a fresh cache by completed calls, a key
for which no `Add` or `AddWithTTL` has completed since construction or since
the last `Clear` or `Remove` of that key is read by `Get` as `(nil, false)`. -/
theorem C15_get_of_unwritten_key (cap : Int) (fuel : Nat) (ops : List (Op K V))
    (s : LRUCache K V) (key : K) (hrun : run fuel (NewCache cap) ops = .ok s)
    (hm : mayHold key false ops = false) : Get s key = .ok (none, false) :=
  Get_none s key (run_mayHold fuel key ops (NewCache cap) s false (fun _ => rfl) hrun hm)

/-- Witness of C15: key 1 added and removed, key 2 added; key 1 reads as
absent. -/
theorem C15_get_of_unwritten_key_witness :
    Get (after 3 [Op.Add 1 10, Op.Add 2 20, Op.Remove 1] : LRUCache Nat Nat) 1
      = .ok (none, false) :=
  C15_get_of_unwritten_key 3 0 [Op.Add 1 10, Op.Add 2 20, Op.Remove 1]
    (after 3 [Op.Add 1 10, Op.Add 2 20, Op.Remove 1] : LRUCache Nat Nat) 1 rfl rfl

/-- C16: in every state reached from a fresh cache by completed calls, once
`Add(key, value)` has completed, `head` is the store's entry for the key, that
entry holds the key and the value and has no `prev`; and if the key was
present before, it is the entry the store held then and `Len()` is
unchanged. -/
theorem C16_add_entry_is_head (cap : Int) (s s' : LRUCache K V) (key : K) (value : V)
    (hr : Reachable cap s) (h : Add s key value = .ok s') :
    ∃ a n, s'.head = some a ∧ mapLookup s'.items key = some a ∧ s'.heap[a]? = some n ∧
      n.key = key ∧ n.value = value ∧ n.prev = none ∧
      (∀ a0, mapLookup s.items key = some a0 → a0 = a ∧ Len s' = Len s) := by
  have hi' : Inv s' := Inv_add s s' key value 0 0 (Reachable_inv cap s hr) h
  obtain ⟨a, n, hhead, hk, hn, hval, -, -, hsame⟩ := add_entry _ _ _ _ _ _ h
  obtain ⟨n2, hn2, hkey⟩ := hi'.keys key a (mapLookup_mem _ _ _ hk)
  rw [hn] at hn2
  cases hn2
  refine ⟨a, n, hhead, hk, hn, hkey, hval, hi'.headPrev a n hhead hn, ?_⟩
  intro a0 ha0
  obtain ⟨h1, h2, -⟩ := hsame a0 ha0
  exact ⟨h1, by rw [Len, Len, h2]⟩

/-- Witness of C16: the rewrite of `TestAddRewrite`, key 2 added, key 3 added,
key 2 added again. -/
theorem C16_add_entry_is_head_witness :
    ∃ a n, (after 10 [Op.Add 2 20, Op.Add 3 30, Op.Add 2 21] : LRUCache Nat Nat).head = some a ∧
      mapLookup (after 10 [Op.Add 2 20, Op.Add 3 30, Op.Add 2 21] : LRUCache Nat Nat).items 2
        = some a ∧
      (after 10 [Op.Add 2 20, Op.Add 3 30, Op.Add 2 21] : LRUCache Nat Nat).heap[a]? = some n ∧
      n.key = 2 ∧ n.value = 21 ∧ n.prev = none ∧
      (∀ a0, mapLookup (after 10 [Op.Add 2 20, Op.Add 3 30] : LRUCache Nat Nat).items 2 = some a0 →
        a0 = a ∧ Len (after 10 [Op.Add 2 20, Op.Add 3 30, Op.Add 2 21] : LRUCache Nat Nat)
          = Len (after 10 [Op.Add 2 20, Op.Add 3 30] : LRUCache Nat Nat)) :=
  C16_add_entry_is_head 10 (after 10 [Op.Add 2 20, Op.Add 3 30] : LRUCache Nat Nat)
    (after 10 [Op.Add 2 20, Op.Add 3 30, Op.Add 2 21] : LRUCache Nat Nat) 2 21
    ⟨0, [Op.Add 2 20, Op.Add 3 30], rfl⟩ rfl

/-- C17 against the code: on capacity 3, after `Add(1)`, `Add(2)`, `Add(3)`,
`Remove(3)` the store holds the keys 2 and 1, but the node at `head` has key 3
and the walk from it along `next` to `tail` goes on over the nodes of keys 2
and 1: the list holds an entry whose key is not in the store.  On capacity 2,
after `Add(1)`, `Add(2)`, `Remove(1)` the walk from `head` never gets to
`tail`: it steps off the end of the list. -/
theorem C17_list_differs_from_store :
    (run 0 (NewCache 3 : LRUCache Nat Nat)
        [Op.Add 1 10, Op.Add 2 20, Op.Add 3 30, Op.Remove 3]).map
        (fun s => s.items.map Prod.fst) = .ok [2, 1] ∧
    ((run 0 (NewCache 3 : LRUCache Nat Nat)
        [Op.Add 1 10, Op.Add 2 20, Op.Add 3 30, Op.Remove 3]).bind
        (fun s => deref s.heap s.head)).map (fun n => n.key) = .ok 3 ∧
    (run 0 (NewCache 3 : LRUCache Nat Nat)
        [Op.Add 1 10, Op.Add 2 20, Op.Add 3 30, Op.Remove 3]).bind
        (fun s => walk s 3 s.head) = .ok [2, 1] ∧
    (run 0 (NewCache 2 : LRUCache Nat Nat) [Op.Add 1 10, Op.Add 2 20, Op.Remove 1]).bind
        (fun s => walk s 3 s.head) = .error .nilDeref :=
  ⟨rfl, rfl, rfl, rfl⟩

/-- C18 against the code: on capacity 1, after `Add(1)` and `Remove(1)` the
store is empty, `Len() = 0`, while `head` and `tail` still point at the removed
node; the same holds after `AddWithTTL(1, 10, 5)` at instant 0 and a round of
the sweeper at instant 6. -/
theorem C18_empty_store_with_head :
    (run 0 (NewCache 1 : LRUCache Nat Nat) [Op.Add 1 10, Op.Remove 1]).map
        (fun s => (Len s, s.head, s.tail)) = .ok (0, some 0, some 0) ∧
    ((run 0 (NewCache 1 : LRUCache Nat Nat) [Op.AddWithTTL 1 10 5 0]).bind
        (checkExpired 6)).map (fun s => (Len s, s.head, s.tail)) = .ok (0, some 0, some 0) :=
  ⟨rfl, rfl⟩

/-- C19: in every reached state, for every key already in the store,
`Add(key, value)` completes, replaces the entry's value and leaves its expiry
instant as it was; so if that instant is set, a round of the sweeper at any
later instant still removes the key. -/
theorem C19_add_keeps_expiry (cap : Int) (s : LRUCache K V) (key : K) (value : V) (a : Nat)
    (n : Node K V) (hr : Reached cap s) (hk : mapLookup s.items key = some a)
    (hn : s.heap[a]? = some n) :
    ∃ s' n', Add s key value = .ok s' ∧ mapLookup s'.items key = some a ∧
      s'.heap[a]? = some n' ∧ n'.value = value ∧ n'.exp = n.exp ∧
      (∀ now order, n.exp ≠ 0 → n.exp < now → order.Perm s'.items →
        ∃ s'', sweepOver now order s' = .ok s'' ∧ Get s'' key = .ok (none, false)) := by
  obtain ⟨s', hadd⟩ := add_present_total s key value 0 0 a (Reached_inv cap s hr) hk
  obtain ⟨a', n', -, hk', hn', hval, -, -, hsame⟩ := add_entry _ _ _ _ _ _ hadd
  obtain ⟨haa, -, hexp⟩ := hsame a hk
  subst haa
  have he : n'.exp = n.exp := hexp n hn rfl
  refine ⟨s', n', hadd, hk', hn', hval, he, ?_⟩
  intro now order hne hlt hp
  have hr' : Reached cap s' := Reached.call 0 s s' (Op.Add key value) hr hadd
  obtain ⟨s'', hs'', p1, -, -⟩ := sweep_round now order s' (Reached_inv cap s' hr').valid hp
  have hx : expiredAt now s'.heap a = true := by
    simp [expiredAt, hn', expired, he, hne, hlt]
  exact ⟨s'', hs'', (p1 key a hk' hx).2⟩

/-- Witness of C19: key 1 written with ttl 5 at instant 0, then rewritten by
`Add`; the expiry instant stays 5 and the round at instant 6 removes the
key. -/
theorem C19_add_keeps_expiry_witness :
    ∃ (s' : LRUCache Nat Nat) (n' : Node Nat Nat),
      Add (after 3 [Op.AddWithTTL 1 10 5 0] : LRUCache Nat Nat) 1 11 = .ok s' ∧
      mapLookup s'.items 1 = some 0 ∧ s'.heap[0]? = some n' ∧ n'.value = 11 ∧ n'.exp = 5 ∧
      (∀ now order, (5 : Int) ≠ 0 → 5 < now → order.Perm s'.items →
        ∃ s'', sweepOver now order s' = .ok s'' ∧ Get s'' 1 = .ok (none, false)) :=
  C19_add_keeps_expiry 3 (after 3 [Op.AddWithTTL 1 10 5 0] : LRUCache Nat Nat) 1 11 0
    { key := 1, value := 10, exp := 5, prev := none, next := none }
    (Reachable_reached 3 (after 3 [Op.AddWithTTL 1 10 5 0] : LRUCache Nat Nat)
      ⟨0, [Op.AddWithTTL 1 10 5 0], rfl⟩) rfl rfl

/-- C20: in every reached state, for every key, present or absent, `Get(key)`
returns and leaves the whole state as it was: the store, `head`, `tail` and
every node with its links, value and expiry instant. -/
theorem C20_get_changes_nothing (cap : Int) (fuel : Nat) (s : LRUCache K V) (key : K)
    (hr : Reached cap s) :
    ∃ r, Get s key = .ok r ∧ step fuel s (Op.Get key) = .ok s ∧
      ∀ s', step fuel s (Op.Get key) = .ok s' →
        s' = s ∧ s'.items = s.items ∧ s'.head = s.head ∧ s'.tail = s.tail ∧ s'.heap = s.heap := by
  have hv := (Reached_inv cap s hr).valid
  have hget : ∃ r, Get s key = .ok r := by
    cases hk : mapLookup s.items key with
    | none => exact ⟨_, Get_none s key hk⟩
    | some a =>
      have hlt : a < s.heap.length := hv.items _ (mapLookup_mem _ _ _ hk)
      exact ⟨_, Get_of_value s key a (s.heap[a]).value hk
        (by simp [List.getElem?_eq_getElem hlt])⟩
  obtain ⟨r, hr'⟩ := hget
  have hstep : step fuel s (Op.Get key) = .ok s := by
    simp [step, hr', bind, Except.bind, pure, Except.pure]
  refine ⟨r, hr', hstep, ?_⟩
  intro s' hs'
  rw [hstep] at hs'
  cases hs'
  exact ⟨rfl, rfl, rfl, rfl, rfl⟩

/-- Witness of C20: `Get(1)` in the cache holding keys 1 and 2. -/
theorem C20_get_changes_nothing_witness :
    ∃ r, Get (after 2 [Op.Add 1 10, Op.Add 2 20] : LRUCache Nat Nat) 1 = .ok r ∧
      step 0 (after 2 [Op.Add 1 10, Op.Add 2 20] : LRUCache Nat Nat) (Op.Get 1)
        = .ok (after 2 [Op.Add 1 10, Op.Add 2 20]) ∧
      ∀ s', step 0 (after 2 [Op.Add 1 10, Op.Add 2 20] : LRUCache Nat Nat) (Op.Get 1) = .ok s' →
        s' = after 2 [Op.Add 1 10, Op.Add 2 20] ∧
        s'.items = (after 2 [Op.Add 1 10, Op.Add 2 20] : LRUCache Nat Nat).items ∧
        s'.head = (after 2 [Op.Add 1 10, Op.Add 2 20] : LRUCache Nat Nat).head ∧
        s'.tail = (after 2 [Op.Add 1 10, Op.Add 2 20] : LRUCache Nat Nat).tail ∧
        s'.heap = (after 2 [Op.Add 1 10, Op.Add 2 20] : LRUCache Nat Nat).heap :=
  C20_get_changes_nothing 2 0 (after 2 [Op.Add 1 10, Op.Add 2 20] : LRUCache Nat Nat) 1
    (Reachable_reached 2 (after 2 [Op.Add 1 10, Op.Add 2 20] : LRUCache Nat Nat)
      ⟨0, [Op.Add 1 10, Op.Add 2 20], rfl⟩)

end Claims

end LRU
